import Mathlib

/-!
Verification of the slot-algebra subsystem of the HElib-style library
(`PAlgebra.h`): the index algebra of `(Z/mZ)* / <p>` and the residue-ring
coder that factors the cyclotomic polynomial mod `p^r`, establishes the CRT
correspondence between ring elements and slot vectors, and the derived
tables (CRT coefficients, rotation masks, representative tables).

Polynomials over `Z/(p^r)` are embedded as coefficient lists (`Poly q`),
with executable arithmetic, and are interpreted into Mathlib's
`Polynomial (ZMod q)` for the algebraic proofs.
-/

namespace HElibVerif

/-- A polynomial over `Z/qZ`, as its little-endian coefficient list
(the executable counterpart of NTL's `zz_pX`/`GF2X`). -/
abbrev Poly (q : ℕ) := List (ZMod q)

variable {q : ℕ}

/-- Coefficient of `X^i` in the coefficient list `f` (0 beyond the list). -/
def coeff : Poly q → ℕ → ZMod q
  | [], _ => 0
  | a :: _, 0 => a
  | _ :: f, n + 1 => coeff f n

/-- Addition of coefficient lists. -/
def polyAdd : Poly q → Poly q → Poly q
  | [], g => g
  | f, [] => f
  | a :: f, b :: g => (a + b) :: polyAdd f g

/-- Negation of a coefficient list. -/
def polyNeg (f : Poly q) : Poly q := f.map (fun a => -a)

/-- Subtraction of coefficient lists. -/
def polySub (f g : Poly q) : Poly q := polyAdd f (polyNeg g)

/-- Scalar multiple of a coefficient list. -/
def polySmul (c : ZMod q) (f : Poly q) : Poly q := f.map (fun a => c * a)

/-- Product of coefficient lists. -/
def polyMul : Poly q → Poly q → Poly q
  | [], _ => []
  | a :: f, g => polyAdd (polySmul a g) ((0 : ZMod q) :: polyMul f g)

/-- `c * X^k` as a coefficient list. -/
def monomialL (k : ℕ) (c : ZMod q) : Poly q := List.replicate k (0 : ZMod q) ++ [c]

/-- Remove trailing zero coefficients, producing the canonical
(normalized) coefficient list, as NTL polynomials are normalized. -/
def trim : Poly q → Poly q
  | [] => []
  | a :: f =>
    match trim f with
    | [] => if a = 0 then [] else [a]
    | b :: t => a :: b :: t

/-- A normalized nonzero list with leading coefficient 1. -/
def MonicL (f : Poly q) : Prop :=
  0 < (trim f).length ∧ coeff f ((trim f).length - 1) = 1

instance (f : Poly q) : Decidable (MonicL f) := by
  unfold MonicL; infer_instance

/-- Sum of a list of polynomials. -/
def sumPolys (l : List (Poly q)) : Poly q := l.foldr polyAdd []

/-- Product of a list of polynomials. -/
def prodPolys (l : List (Poly q)) : Poly q := l.foldr polyMul [1]

/-- `l[i]`, defaulting to the zero polynomial. -/
def getP : List (Poly q) → ℕ → Poly q
  | [], _ => []
  | f :: _, 0 => f
  | _ :: l, n + 1 => getP l n

/-- The list `[f 0, f 1, ..., f (n-1)]`. -/
def mkL {α : Type} : ℕ → (ℕ → α) → List α
  | 0, _ => []
  | n + 1, f => mkL n f ++ [f n]

section CoeffLemmas

@[simp] theorem coeff_nil (i : ℕ) : coeff ([] : Poly q) i = 0 := rfl

@[simp] theorem coeff_cons_zero (a : ZMod q) (f : Poly q) : coeff (a :: f) 0 = a := rfl

@[simp] theorem coeff_cons_succ (a : ZMod q) (f : Poly q) (n : ℕ) :
    coeff (a :: f) (n + 1) = coeff f n := rfl

theorem coeff_eq_zero_of_length_le {f : Poly q} {i : ℕ} (h : f.length ≤ i) :
    coeff f i = 0 := by
  induction f generalizing i with
  | nil => simp
  | cons a f ih =>
    cases i with
    | zero => simp at h
    | succ n => simpa using ih (by simpa using h)

@[simp] theorem polyAdd_nil_left (g : Poly q) : polyAdd [] g = g := by
  cases g <;> rfl

@[simp] theorem polyAdd_nil_right (f : Poly q) : polyAdd f [] = f := by
  cases f <;> rfl

@[simp] theorem polyAdd_cons_cons (a b : ZMod q) (f g : Poly q) :
    polyAdd (a :: f) (b :: g) = (a + b) :: polyAdd f g := rfl

theorem coeff_polyAdd (f g : Poly q) (i : ℕ) :
    coeff (polyAdd f g) i = coeff f i + coeff g i := by
  induction f generalizing g i with
  | nil => simp
  | cons a f ih =>
    cases g with
    | nil => simp
    | cons b g =>
      cases i with
      | zero => simp
      | succ n => simpa using ih g n

theorem coeff_polyNeg (f : Poly q) (i : ℕ) : coeff (polyNeg f) i = -coeff f i := by
  induction f generalizing i with
  | nil => simp [polyNeg]
  | cons a f ih =>
    cases i with
    | zero => simp [polyNeg]
    | succ n => simpa [polyNeg] using ih n

theorem coeff_polySub (f g : Poly q) (i : ℕ) :
    coeff (polySub f g) i = coeff f i - coeff g i := by
  simp [polySub, coeff_polyAdd, coeff_polyNeg, sub_eq_add_neg]

theorem coeff_polySmul (c : ZMod q) (f : Poly q) (i : ℕ) :
    coeff (polySmul c f) i = c * coeff f i := by
  induction f generalizing i with
  | nil => simp [polySmul]
  | cons a f ih =>
    cases i with
    | zero => simp [polySmul]
    | succ n => simpa [polySmul] using ih n

end CoeffLemmas

section TrimLemmas

@[simp] theorem trim_nil : trim ([] : Poly q) = [] := rfl

theorem trim_cons (a : ZMod q) (f : Poly q) :
    trim (a :: f) = match trim f with
      | [] => if a = 0 then [] else [a]
      | b :: t => a :: b :: t := rfl

theorem trim_cons_of_nil {f : Poly q} (a : ZMod q) (h : trim f = []) :
    trim (a :: f) = if a = 0 then [] else [a] := by
  rw [trim_cons, h]

theorem trim_cons_of_cons {f t : Poly q} {b : ZMod q} (a : ZMod q)
    (h : trim f = b :: t) : trim (a :: f) = a :: b :: t := by
  rw [trim_cons, h]

theorem coeff_trim (f : Poly q) (i : ℕ) : coeff (trim f) i = coeff f i := by
  induction f generalizing i with
  | nil => simp
  | cons a f ih =>
    rw [trim_cons]
    rcases h : trim f with _ | ⟨b, t⟩
    · have hzero : ∀ j, coeff f j = 0 := by
        intro j
        have := ih j
        rw [h] at this
        simpa using this.symm
      by_cases ha : a = 0
      · subst ha
        simp only [if_pos rfl]
        cases i with
        | zero => simp
        | succ n => simp [hzero n]
      · simp only [if_neg ha]
        cases i with
        | zero => simp
        | succ n => simp [hzero n]
    · cases i with
      | zero => simp
      | succ n =>
        have := ih n
        rw [h] at this
        simpa using this

theorem trim_sublength (f : Poly q) : (trim f).length ≤ f.length := by
  induction f with
  | nil => simp
  | cons a f ih =>
    rw [trim_cons]
    rcases h : trim f with _ | ⟨b, t⟩
    · by_cases ha : a = 0 <;> simp [ha]
    · rw [h] at ih
      simpa using ih

theorem trim_trim (f : Poly q) : trim (trim f) = trim f := by
  induction f with
  | nil => rfl
  | cons a f ih =>
    rw [trim_cons]
    rcases h : trim f with _ | ⟨b, t⟩
    · by_cases ha : a = 0
      · simp [ha]
      · simp [ha, trim_cons]
    · rw [h] at ih
      rw [trim_cons]
      have : trim (b :: t) = b :: t := ih
      rw [this]

theorem trim_last_ne_zero (f : Poly q) (h : trim f ≠ []) :
    coeff (trim f) ((trim f).length - 1) ≠ 0 := by
  induction f with
  | nil => simp at h
  | cons a f ih =>
    rcases htf : trim f with _ | ⟨b, t⟩
    · rw [trim_cons_of_nil a htf] at h ⊢
      by_cases ha : a = 0
      · simp [ha] at h
      · simp [ha]
    · rw [trim_cons_of_cons a htf] at h ⊢
      have ihh := ih (by simp [htf])
      rw [htf] at ihh
      simp only [List.length_cons] at ihh ⊢
      simpa using ihh

theorem coeff_zero_of_trim_length_le {f : Poly q} {i : ℕ}
    (h : (trim f).length ≤ i) : coeff f i = 0 := by
  rw [← coeff_trim]
  exact coeff_eq_zero_of_length_le h

theorem trim_length_le_of_coeff_zero {f : Poly q} {n : ℕ}
    (h : ∀ j, n ≤ j → coeff f j = 0) : (trim f).length ≤ n := by
  by_contra hc
  push_neg at hc
  have hne : trim f ≠ [] := by
    intro he
    rw [he] at hc
    simp at hc
  have hlast := trim_last_ne_zero f hne
  rw [coeff_trim] at hlast
  exact hlast (h _ (by omega))

theorem coeff_eq_getElem (f : Poly q) (i : ℕ) (h : i < f.length) :
    coeff f i = f[i] := by
  induction f generalizing i with
  | nil => simp at h
  | cons a f ih =>
    cases i with
    | zero => simp
    | succ n => simpa using ih n (by simpa using h)

theorem trimmed_ext {f g : Poly q} (hf : trim f = f) (hg : trim g = g)
    (h : ∀ i, coeff f i = coeff g i) : f = g := by
  have hlen : f.length = g.length := by
    by_contra hne
    rcases Nat.lt_or_ge f.length g.length with hlt | hge
    · have hgne : g ≠ [] := by
        intro he; rw [he] at hlt; simp at hlt
      have hlast := trim_last_ne_zero g (by rw [hg]; exact hgne)
      rw [hg] at hlast
      exact hlast (by rw [← h]; exact coeff_eq_zero_of_length_le (by omega))
    · have hlt : g.length < f.length := by omega
      have hfne : f ≠ [] := by
        intro he; rw [he] at hlt; simp at hlt
      have hlast := trim_last_ne_zero f (by rw [hf]; exact hfne)
      rw [hf] at hlast
      exact hlast (by rw [h]; exact coeff_eq_zero_of_length_le (by omega))
  apply List.ext_getElem hlen
  intro i h1 h2
  rw [← coeff_eq_getElem f i h1, ← coeff_eq_getElem g i h2]
  exact h i

end TrimLemmas

section Interp

open Polynomial

/-- Interpretation of a coefficient list as a Mathlib polynomial
(Horner form); used only in proofs, never in the executable model. -/
noncomputable def toP : Poly q → Polynomial (ZMod q)
  | [] => 0
  | a :: f => C a + X * toP f

@[simp] theorem toP_nil : toP ([] : Poly q) = 0 := rfl

@[simp] theorem toP_cons (a : ZMod q) (f : Poly q) :
    toP (a :: f) = C a + X * toP f := rfl

theorem coeff_toP (f : Poly q) (i : ℕ) : (toP f).coeff i = coeff f i := by
  induction f generalizing i with
  | nil => simp
  | cons a f ih =>
    cases i with
    | zero => simp [mul_coeff_zero]
    | succ n => simp [coeff_X_mul, ih]

theorem toP_trim (f : Poly q) : toP (trim f) = toP f := by
  apply Polynomial.ext
  intro n
  rw [coeff_toP, coeff_toP, coeff_trim]

theorem toP_inj {f g : Poly q} (hf : trim f = f) (hg : trim g = g)
    (h : toP f = toP g) : f = g := by
  apply trimmed_ext hf hg
  intro i
  rw [← coeff_toP, ← coeff_toP, h]

theorem toP_eq_zero_iff {f : Poly q} : toP f = 0 ↔ trim f = [] := by
  constructor
  · intro h
    have : trim f = trim ([] : Poly q) := by
      apply trimmed_ext (trim_trim f) (by simp)
      intro i
      rw [coeff_trim, ← coeff_toP, h]
      simp
    simpa using this
  · intro h
    rw [← toP_trim, h, toP_nil]

theorem toP_polyAdd (f g : Poly q) : toP (polyAdd f g) = toP f + toP g := by
  apply Polynomial.ext
  intro n
  simp [coeff_toP, coeff_polyAdd]

theorem toP_polyNeg (f : Poly q) : toP (polyNeg f) = -toP f := by
  apply Polynomial.ext
  intro n
  simp [coeff_toP, coeff_polyNeg]

theorem toP_polySub (f g : Poly q) : toP (polySub f g) = toP f - toP g := by
  rw [polySub, toP_polyAdd, toP_polyNeg, sub_eq_add_neg]

theorem toP_polySmul (c : ZMod q) (f : Poly q) :
    toP (polySmul c f) = C c * toP f := by
  apply Polynomial.ext
  intro n
  simp [coeff_toP, coeff_polySmul]

theorem toP_polyMul (f g : Poly q) : toP (polyMul f g) = toP f * toP g := by
  induction f with
  | nil => simp [polyMul]
  | cons a f ih =>
    show toP (polyAdd (polySmul a g) ((0 : ZMod q) :: polyMul f g)) = _
    rw [toP_polyAdd, toP_polySmul, toP_cons, ih]
    ring_nf
    simp [mul_comm, mul_assoc, mul_left_comm]
    ring

theorem toP_monomialL (k : ℕ) (c : ZMod q) :
    toP (monomialL k c) = C c * X ^ k := by
  induction k with
  | zero => simp [monomialL]
  | succ n ih =>
    show toP ((0 : ZMod q) :: monomialL n c) = _
    rw [toP_cons, ih]
    simp [pow_succ]
    ring

theorem toP_sumPolys (l : List (Poly q)) :
    toP (sumPolys l) = (l.map toP).sum := by
  induction l with
  | nil => simp [sumPolys]
  | cons f l ih =>
    show toP (polyAdd f (sumPolys l)) = _
    rw [toP_polyAdd, ih]
    simp

theorem toP_prodPolys (l : List (Poly q)) :
    toP (prodPolys l) = (l.map toP).prod := by
  induction l with
  | nil => simp [prodPolys]
  | cons f l ih =>
    show toP (polyMul f (prodPolys l)) = _
    rw [toP_polyMul, ih]
    simp

theorem toP_one : toP ([1] : Poly q) = 1 := by
  simp

end Interp

section GetPLemmas

@[simp] theorem getP_nil (i : ℕ) : getP ([] : List (Poly q)) i = [] := rfl

@[simp] theorem getP_cons_zero (f : Poly q) (l : List (Poly q)) :
    getP (f :: l) 0 = f := rfl

@[simp] theorem getP_cons_succ (f : Poly q) (l : List (Poly q)) (n : ℕ) :
    getP (f :: l) (n + 1) = getP l n := rfl

theorem getP_mem {l : List (Poly q)} {i : ℕ} (h : i < l.length) :
    getP l i ∈ l := by
  induction l generalizing i with
  | nil => simp at h
  | cons f l ih =>
    cases i with
    | zero => simp
    | succ n => simpa using Or.inr (ih (by simpa using h))

theorem getP_map (g : Poly q → Poly q) (l : List (Poly q)) (i : ℕ) (h : i < l.length) :
    getP (l.map g) i = g (getP l i) := by
  induction l generalizing i with
  | nil => simp at h
  | cons f l ih =>
    cases i with
    | zero => simp
    | succ n => simpa using ih n (by simpa using h)

theorem getP_mem_eraseIdx {l : List (Poly q)} {i k : ℕ} (hne : i ≠ k)
    (hk : k < l.length) : getP l k ∈ l.eraseIdx i := by
  induction l generalizing i k with
  | nil => simp at hk
  | cons f l ih =>
    cases i with
    | zero =>
      cases k with
      | zero => exact absurd rfl hne
      | succ n =>
        simp only [List.eraseIdx_cons_zero, getP_cons_succ]
        exact getP_mem (by simpa using hk)
    | succ m =>
      cases k with
      | zero => simp [List.eraseIdx_cons_succ]
      | succ n =>
        simp only [List.eraseIdx_cons_succ, getP_cons_succ, List.mem_cons]
        exact Or.inr (ih (by omega) (by simpa using hk))

theorem prod_getP_eraseIdx {l : List (Poly q)} {i : ℕ} (h : i < l.length) :
    toP (prodPolys l) = toP (getP l i) * toP (prodPolys (l.eraseIdx i)) := by
  induction l generalizing i with
  | nil => simp at h
  | cons f l ih =>
    cases i with
    | zero =>
      show toP (polyMul f (prodPolys l)) = _
      rw [toP_polyMul]
      simp [List.eraseIdx_cons_zero]
    | succ n =>
      show toP (polyMul f (prodPolys l)) = _
      rw [toP_polyMul, ih (by simpa using h)]
      simp only [List.eraseIdx_cons_succ, getP_cons_succ]
      show _ = toP (getP l n) * toP (polyMul f (prodPolys (l.eraseIdx n)))
      rw [toP_polyMul]
      ring

end GetPLemmas

section MkLLemmas

@[simp] theorem mkL_zero {α : Type} (f : ℕ → α) : mkL 0 f = [] := rfl

theorem mkL_succ {α : Type} (n : ℕ) (f : ℕ → α) :
    mkL (n + 1) f = mkL n f ++ [f n] := rfl

@[simp] theorem length_mkL {α : Type} (n : ℕ) (f : ℕ → α) :
    (mkL n f).length = n := by
  induction n with
  | zero => rfl
  | succ m ih => simp [mkL_succ, ih]

theorem getP_append_lt (l l2 : List (Poly q)) (i : ℕ) (h : i < l.length) :
    getP (l ++ l2) i = getP l i := by
  induction l generalizing i with
  | nil => simp at h
  | cons f l ih =>
    cases i with
    | zero => simp
    | succ n => simpa using ih n (by simpa using h)

theorem getP_append_right (l l2 : List (Poly q)) (i : ℕ) :
    getP (l ++ l2) (l.length + i) = getP l2 i := by
  induction l with
  | nil => simp
  | cons f l ih =>
    have hieq : (f :: l).length + i = (l.length + i) + 1 := by
      simp; omega
    rw [hieq]
    simpa using ih

theorem getP_mkL (n : ℕ) (f : ℕ → Poly q) (i : ℕ) (h : i < n) :
    getP (mkL n f) i = f i := by
  induction n with
  | zero => omega
  | succ m ih =>
    rw [mkL_succ]
    rcases Nat.lt_or_ge i m with hlt | hge
    · rw [getP_append_lt _ _ _ (by simpa using hlt)]
      exact ih hlt
    · have him : i = m := by omega
      have h2 := getP_append_right (mkL m f) [f m] 0
      simp only [length_mkL, Nat.add_zero, getP_cons_zero] at h2
      rw [him]
      exact h2

theorem listP_ext {l l2 : List (Poly q)} (hlen : l.length = l2.length)
    (h : ∀ i, i < l.length → getP l i = getP l2 i) : l = l2 := by
  induction l generalizing l2 with
  | nil =>
    cases l2 with
    | nil => rfl
    | cons g t => simp at hlen
  | cons f l ih =>
    cases l2 with
    | nil => simp at hlen
    | cons g t =>
      have h0 := h 0 (by simp)
      simp only [getP_cons_zero] at h0
      subst h0
      congr 1
      apply ih (by simpa using hlen)
      intro i hi
      simpa using h (i + 1) (by simpa using hi)

theorem toP_sum_mkL (n : ℕ) (f : ℕ → Poly q) :
    toP (sumPolys (mkL n f)) = ∑ i ∈ Finset.range n, toP (f i) := by
  induction n with
  | zero => simp [sumPolys]
  | succ m ih =>
    rw [mkL_succ]
    have happ : ∀ (a b : List (Poly q)),
        toP (sumPolys (a ++ b)) = toP (sumPolys a) + toP (sumPolys b) := by
      intro a b
      induction a with
      | nil => simp [sumPolys]
      | cons x a iha =>
        show toP (polyAdd x (sumPolys (a ++ b))) = toP (polyAdd x (sumPolys a)) + _
        rw [toP_polyAdd, toP_polyAdd, iha]
        ring
    rw [happ, ih, Finset.sum_range_succ]
    show _ = _ + toP (f m)
    congr 1
    show toP (polyAdd (f m) (sumPolys [])) = toP (f m)
    simp [sumPolys]

end MkLLemmas

section MonicBridge

open Polynomial

theorem nontrivial_zmod (hq : 1 < q) : Nontrivial (ZMod q) := by
  haveI := Fact.mk hq
  infer_instance

theorem degree_toP_lt {f : Poly q} {n : ℕ} (h : (trim f).length ≤ n) :
    (toP f).degree < (n : ℕ) := by
  rw [Polynomial.degree_lt_iff_coeff_zero]
  intro m hm
  rw [coeff_toP]
  exact coeff_zero_of_trim_length_le (le_trans h hm)

theorem degree_toP_of_ne_nil {f : Poly q} (h : trim f ≠ []) :
    (toP f).degree = (((trim f).length - 1 : ℕ) : WithBot ℕ) := by
  apply le_antisymm
  · rw [Polynomial.degree_le_iff_coeff_zero]
    intro m hm
    rw [coeff_toP]
    apply coeff_zero_of_trim_length_le
    have : (trim f).length - 1 < m := by exact_mod_cast WithBot.coe_lt_coe.mp hm
    omega
  · apply Polynomial.le_degree_of_ne_zero
    rw [coeff_toP]
    have := trim_last_ne_zero f h
    rwa [coeff_trim] at this

theorem natDegree_toP_of_ne_nil {f : Poly q} (h : trim f ≠ []) :
    (toP f).natDegree = (trim f).length - 1 :=
  Polynomial.natDegree_eq_of_degree_eq_some (degree_toP_of_ne_nil h)

theorem trim_ne_nil_of_monicL {f : Poly q} (hm : MonicL f) : trim f ≠ [] := by
  intro he
  have := hm.1
  rw [he] at this
  simp at this

theorem monic_toP {f : Poly q} (hm : MonicL f) : (toP f).Monic := by
  unfold Polynomial.Monic Polynomial.leadingCoeff
  rw [natDegree_toP_of_ne_nil (trim_ne_nil_of_monicL hm), coeff_toP]
  exact hm.2

theorem toP_ne_zero_of_monicL {f : Poly q} (hq : 1 < q) (hm : MonicL f) :
    toP f ≠ 0 := by
  haveI := nontrivial_zmod hq
  exact (monic_toP hm).ne_zero

end MonicBridge

section DivMod

open Polynomial

/-- One division step at a time, with an explicit fuel bound: divide `f` by
the (monic) `g`, repeatedly cancelling the leading coefficient. -/
def divModFuel (g : Poly q) : ℕ → Poly q → Poly q × Poly q
  | 0, f => ([], trim f)
  | fuel + 1, f =>
    let tf := trim f
    let tg := trim g
    if tf.length < tg.length then ([], tf)
    else
      let k := tf.length - tg.length
      let c := coeff tf (tf.length - 1)
      let f2 := polySub tf (polyMul (monomialL k c) tg)
      let p := divModFuel g fuel f2
      (polyAdd p.1 (monomialL k c), p.2)

/-- Quotient and remainder of division by a monic polynomial. -/
def polyDivMod (f g : Poly q) : Poly q × Poly q := divModFuel g (trim f).length f

/-- Remainder of `f` modulo the monic polynomial `g` (NTL's `rem`):
the representative of `f` in `R[X]/(g)` of degree less than `deg g`. -/
def polyMod (f g : Poly q) : Poly q := (polyDivMod f g).2

theorem divModFuel_spec (hq : 1 < q) {g : Poly q} (hg : MonicL g) :
    ∀ fuel (f : Poly q), (trim f).length ≤ fuel →
      toP f = toP (divModFuel g fuel f).1 * toP g + toP (divModFuel g fuel f).2
      ∧ trim (divModFuel g fuel f).2 = (divModFuel g fuel f).2
      ∧ ((divModFuel g fuel f).2).length < (trim g).length := by
  haveI := nontrivial_zmod hq
  intro fuel
  induction fuel with
  | zero =>
    intro f hf
    have hnil : trim f = [] := List.length_eq_zero.mp (by omega)
    refine ⟨?_, ?_, ?_⟩
    · show toP f = toP [] * toP g + toP (trim f)
      rw [toP_trim]
      simp
    · show trim (trim f) = trim f
      exact trim_trim f
    · show (trim f).length < (trim g).length
      rw [hnil]
      simpa using hg.1
  | succ fuel ih =>
    intro f hf
    show _ ∧ _ ∧ _
    rw [divModFuel]
    by_cases hlt : (trim f).length < (trim g).length
    · simp only [if_pos hlt]
      exact ⟨by rw [toP_trim]; simp, trim_trim f, hlt⟩
    · simp only [if_neg hlt]
      push_neg at hlt
      have hgpos : 0 < (trim g).length := hg.1
      have hfpos : 0 < (trim f).length := by omega
      set k := (trim f).length - (trim g).length with hk
      set c := coeff (trim f) ((trim f).length - 1) with hc
      set f2 := polySub (trim f) (polyMul (monomialL k c) (trim g)) with hf2
      have htoPf2 : toP f2 = toP f - C c * X ^ k * toP g := by
        rw [hf2, toP_polySub, toP_polyMul, toP_monomialL, toP_trim, toP_trim]
      have hcoefface : ∀ j, (trim f).length - 1 ≤ j → coeff f2 j = 0 := by
        intro j hj
        rw [← coeff_toP, htoPf2]
        rcases Nat.eq_or_lt_of_le hj with heq | hgt
        · have hksplit : (trim f).length - 1 = ((trim g).length - 1) + k := by omega
          rw [Polynomial.coeff_sub, mul_assoc, Polynomial.coeff_C_mul]
          rw [← heq, hksplit, Polynomial.coeff_X_pow_mul]
          have hgl : (toP g).coeff ((trim g).length - 1) = 1 := by
            rw [coeff_toP]; exact hg.2
          rw [hgl, mul_one]
          rw [coeff_toP, ← coeff_trim, ← hksplit, ← hc]
          exact sub_self c
        · have hjge : (trim f).length ≤ j := by omega
          have h1 : (toP f).coeff j = 0 := by
            rw [coeff_toP]; exact coeff_zero_of_trim_length_le hjge
          have hksplit : j = (j - k) + k := by omega
          rw [Polynomial.coeff_sub, mul_assoc, Polynomial.coeff_C_mul, h1]
          rw [hksplit, Polynomial.coeff_X_pow_mul]
          have h2 : (toP g).coeff (j - k) = 0 := by
            rw [coeff_toP]
            apply coeff_zero_of_trim_length_le
            omega
          rw [h2, mul_zero]
          simp
      have hlen2 : (trim f2).length ≤ fuel := by
        have := trim_length_le_of_coeff_zero hcoefface
        omega
      obtain ⟨ih1, ih2, ih3⟩ := ih f2 hlen2
      refine ⟨?_, ih2, ih3⟩
      rw [toP_polyAdd, toP_monomialL]
      have : toP f = toP f2 + C c * X ^ k * toP g := by
        rw [htoPf2]; ring
      rw [this, ih1]
      ring

theorem polyMod_trimmed (hq : 1 < q) {g : Poly q} (hg : MonicL g) (f : Poly q) :
    trim (polyMod f g) = polyMod f g :=
  (divModFuel_spec hq hg (trim f).length f le_rfl).2.1

theorem polyMod_length_lt (hq : 1 < q) {g : Poly q} (hg : MonicL g) (f : Poly q) :
    (polyMod f g).length < (trim g).length :=
  (divModFuel_spec hq hg (trim f).length f le_rfl).2.2

theorem toP_decomp (hq : 1 < q) {g : Poly q} (hg : MonicL g) (f : Poly q) :
    toP f = toP (polyDivMod f g).1 * toP g + toP (polyMod f g) :=
  (divModFuel_spec hq hg (trim f).length f le_rfl).1

theorem toP_polyMod (hq : 1 < q) {g : Poly q} (hg : MonicL g) (f : Poly q) :
    toP (polyMod f g) = toP f %ₘ toP g := by
  haveI := nontrivial_zmod hq
  have hdeg : (toP (polyMod f g)).degree < (toP g).degree := by
    rw [degree_toP_of_ne_nil (trim_ne_nil_of_monicL hg)]
    have h1 : (trim (polyMod f g)).length ≤ (trim g).length - 1 := by
      have := polyMod_length_lt hq hg f
      have := trim_sublength (polyMod f g)
      omega
    exact degree_toP_lt h1
  have hdec := toP_decomp hq hg f
  have huniq : toP f /ₘ toP g = toP (polyDivMod f g).1
      ∧ toP f %ₘ toP g = toP (polyMod f g) :=
    Polynomial.div_modByMonic_unique _ _ (monic_toP hg)
      ⟨by linear_combination hdec.symm, hdeg⟩
  exact huniq.2.symm

theorem degree_toP_polyMod_lt (hq : 1 < q) {g : Poly q} (hg : MonicL g)
    (f : Poly q) : (toP (polyMod f g)).degree < (toP g).degree := by
  rw [degree_toP_of_ne_nil (trim_ne_nil_of_monicL hg)]
  have h1 : (trim (polyMod f g)).length ≤ (trim g).length - 1 := by
    have := polyMod_length_lt hq hg f
    have := trim_sublength (polyMod f g)
    omega
  exact degree_toP_lt h1

theorem polyMod_eq_iff (hq : 1 < q) {g : Poly q} (hg : MonicL g) (a b : Poly q) :
    polyMod a g = polyMod b g ↔ toP g ∣ (toP a - toP b) := by
  haveI := nontrivial_zmod hq
  constructor
  · intro h
    have h2 : toP a %ₘ toP g = toP b %ₘ toP g := by
      rw [← toP_polyMod hq hg, ← toP_polyMod hq hg, h]
    rw [← Polynomial.modByMonic_eq_zero_iff_dvd (monic_toP hg),
      Polynomial.sub_modByMonic, h2, sub_self]
  · intro h
    apply toP_inj (polyMod_trimmed hq hg a) (polyMod_trimmed hq hg b)
    rw [toP_polyMod hq hg, toP_polyMod hq hg]
    have h0 : (toP a - toP b) %ₘ toP g = 0 :=
      (Polynomial.modByMonic_eq_zero_iff_dvd (monic_toP hg)).mpr h
    rw [Polynomial.sub_modByMonic] at h0
    exact sub_eq_zero.mp h0

end DivMod

section CRTCore

open Polynomial

/-- Modelled from the spec: `CRT_decompose(H)` of the residue-ring coder —
its implementation file is not under `src/` (only the declaration in
`PAlgebra.h`); per spec section 4.3, for each slot `i` it computes
`H mod factors[i]`, producing one residue per slot. -/
def CRT_decompose (factors : List (Poly q)) (H : Poly q) : List (Poly q) :=
  factors.map (fun F => polyMod H F)

/-- Modelled from the spec: `CRT_reconstruct(crt)` of the residue-ring coder —
its implementation file is not under `src/`; per spec sections 3 and 4.3 it
combines per-slot residues using
`crtCoeffs[i] = (prod_{j != i} factors[j])^{-1} mod factors[i]` into the ring
element with those residues (the implementation's `crtTree` is only a balanced
evaluation order for this same combination). -/
def CRT_reconstruct (factors crtCoeffs : List (Poly q)) (crt : List (Poly q)) : Poly q :=
  trim (sumPolys (mkL factors.length (fun i =>
    polyMul (polyMod (polyMul (getP crt i) (getP crtCoeffs i)) (getP factors i))
            (prodPolys (factors.eraseIdx i)))))

theorem CRT_reconstruct_trimmed (factors crtCoeffs crt : List (Poly q)) :
    trim (CRT_reconstruct factors crtCoeffs crt) = CRT_reconstruct factors crtCoeffs crt := by
  unfold CRT_reconstruct
  exact trim_trim _

theorem monic_toP_prodPolys {l : List (Poly q)} (h : ∀ g ∈ l, MonicL g) :
    (toP (prodPolys l)).Monic := by
  induction l with
  | nil =>
    show (toP ([1] : Poly q)).Monic
    rw [toP_one]
    exact Polynomial.monic_one
  | cons f t ih =>
    show (toP (polyMul f (prodPolys t))).Monic
    rw [toP_polyMul]
    exact (monic_toP (h f (by simp))).mul (ih (fun g hg => h g (by simp [hg])))

theorem mod_eq_mod_of_dvd_sub {F x y : Polynomial (ZMod q)} (hF : F.Monic)
    (h : F ∣ x - y) : x %ₘ F = y %ₘ F := by
  have h0 := (Polynomial.modByMonic_eq_zero_iff_dvd hF).mpr h
  rw [Polynomial.sub_modByMonic] at h0
  exact sub_eq_zero.mp h0

theorem sum_modByMonic {ι : Type} (s : Finset ι) (f : ι → Polynomial (ZMod q))
    (g : Polynomial (ZMod q)) :
    (∑ i ∈ s, f i) %ₘ g = ∑ i ∈ s, (f i %ₘ g) := by
  classical
  induction s using Finset.induction_on with
  | empty => simp [Polynomial.zero_modByMonic]
  | insert hnotmem ih =>
    rw [Finset.sum_insert hnotmem, Finset.sum_insert hnotmem,
      Polynomial.add_modByMonic, ih]

/-- The crtCoeffs defining equation makes each factor coprime to the product
of the others. -/
theorem crt_coprime (hq : 1 < q) {factors crtCoeffs : List (Poly q)}
    (hmon : ∀ g ∈ factors, MonicL g)
    (hcs : ∀ i, i < factors.length →
      polyMod (polyMul (getP crtCoeffs i) (prodPolys (factors.eraseIdx i)))
        (getP factors i) = [1])
    (i : ℕ) (hi : i < factors.length) :
    IsCoprime (toP (getP factors i)) (toP (prodPolys (factors.eraseIdx i))) := by
  have hFi : MonicL (getP factors i) := hmon _ (getP_mem hi)
  have h1 : toP (polyMod (polyMul (getP crtCoeffs i) (prodPolys (factors.eraseIdx i)))
      (getP factors i)) = 1 := by
    rw [hcs i hi]
    exact toP_one
  rw [toP_polyMod hq hFi, toP_polyMul] at h1
  have hdiv := Polynomial.modByMonic_add_div
    (toP (getP crtCoeffs i) * toP (prodPolys (factors.eraseIdx i))) (monic_toP hFi)
  refine ⟨-((toP (getP crtCoeffs i) * toP (prodPolys (factors.eraseIdx i))) /ₘ
    toP (getP factors i)), toP (getP crtCoeffs i), ?_⟩
  rw [h1] at hdiv
  linear_combination -hdiv

/-- The key residue computation: the reconstruction of a residue vector `w`
has residue `w k` at the `k`-th factor. Only the shape of the `k`-th entry
matters. -/
theorem recon_residue (hq : 1 < q) {factors crtCoeffs : List (Poly q)}
    (hmon : ∀ g ∈ factors, MonicL g)
    (hcs : ∀ i, i < factors.length →
      polyMod (polyMul (getP crtCoeffs i) (prodPolys (factors.eraseIdx i)))
        (getP factors i) = [1])
    (w : List (Poly q)) (k : ℕ) (hk : k < factors.length)
    (hwk : trim (getP w k) = getP w k)
    (hwlen : (getP w k).length < (trim (getP factors k)).length) :
    polyMod (CRT_reconstruct factors crtCoeffs w) (getP factors k) = getP w k := by
  haveI := nontrivial_zmod hq
  have hFk : MonicL (getP factors k) := hmon _ (getP_mem hk)
  have hFk' := monic_toP hFk
  apply toP_inj (polyMod_trimmed hq hFk _) hwk
  rw [toP_polyMod hq hFk]
  unfold CRT_reconstruct
  rw [toP_trim, toP_sum_mkL, sum_modByMonic]
  have hzero : ∀ i ∈ Finset.range factors.length, i ≠ k →
      toP (polyMul (polyMod (polyMul (getP w i) (getP crtCoeffs i)) (getP factors i))
        (prodPolys (factors.eraseIdx i))) %ₘ toP (getP factors k) = 0 := by
    intro i _ hne
    rw [Polynomial.modByMonic_eq_zero_iff_dvd hFk', toP_polyMul]
    apply Dvd.dvd.mul_left
    rw [toP_prodPolys]
    exact List.dvd_prod (List.mem_map_of_mem toP (getP_mem_eraseIdx hne hk))
  rw [Finset.sum_eq_single k hzero (fun h => absurd (Finset.mem_range.mpr hk) h)]
  have hAk : toP (polyMul (polyMod (polyMul (getP w k) (getP crtCoeffs k)) (getP factors k))
      (prodPolys (factors.eraseIdx k)))
      = (toP (polyMul (getP w k) (getP crtCoeffs k)) %ₘ toP (getP factors k))
        * toP (prodPolys (factors.eraseIdx k)) := by
    rw [toP_polyMul, toP_polyMod hq hFk]
  rw [hAk]
  have hstep1 : ((toP (polyMul (getP w k) (getP crtCoeffs k)) %ₘ toP (getP factors k))
      * toP (prodPolys (factors.eraseIdx k))) %ₘ toP (getP factors k)
      = (toP (polyMul (getP w k) (getP crtCoeffs k))
      * toP (prodPolys (factors.eraseIdx k))) %ₘ toP (getP factors k) := by
    apply mod_eq_mod_of_dvd_sub hFk'
    have hdiv := Polynomial.modByMonic_add_div
      (toP (polyMul (getP w k) (getP crtCoeffs k))) hFk'
    refine ⟨-(toP (polyMul (getP w k) (getP crtCoeffs k)) /ₘ toP (getP factors k))
      * toP (prodPolys (factors.eraseIdx k)), ?_⟩
    linear_combination toP (prodPolys (factors.eraseIdx k)) * hdiv
  rw [hstep1]
  have hone : toP (getP factors k) ∣
      (toP (getP crtCoeffs k) * toP (prodPolys (factors.eraseIdx k)) - 1) := by
    have h1 : toP (polyMod (polyMul (getP crtCoeffs k) (prodPolys (factors.eraseIdx k)))
        (getP factors k)) = 1 := by
      rw [hcs k hk]; exact toP_one
    rw [toP_polyMod hq hFk, toP_polyMul] at h1
    have hdiv := Polynomial.modByMonic_add_div
      (toP (getP crtCoeffs k) * toP (prodPolys (factors.eraseIdx k))) hFk'
    rw [h1] at hdiv
    exact ⟨(toP (getP crtCoeffs k) * toP (prodPolys (factors.eraseIdx k))) /ₘ
      toP (getP factors k), by linear_combination -hdiv⟩
  have hstep2 : (toP (polyMul (getP w k) (getP crtCoeffs k))
      * toP (prodPolys (factors.eraseIdx k))) %ₘ toP (getP factors k)
      = toP (getP w k) %ₘ toP (getP factors k) := by
    apply mod_eq_mod_of_dvd_sub hFk'
    obtain ⟨d, hd⟩ := hone
    refine ⟨toP (getP w k) * d, ?_⟩
    rw [toP_polyMul]
    linear_combination toP (getP w k) * hd
  rw [hstep2]
  rw [Polynomial.modByMonic_eq_self_iff hFk']
  calc (toP (getP w k)).degree
      < (((trim (getP factors k)).length - 1 : ℕ) : WithBot ℕ) := by
        apply degree_toP_lt
        rw [hwk]
        omega
    _ = (toP (getP factors k)).degree :=
        (degree_toP_of_ne_nil (trim_ne_nil_of_monicL hFk)).symm

theorem degree_mul_lt_mul {A F P : Polynomial (ZMod q)} (hP : P.Monic)
    (hF : F.Monic) (hnt : Nontrivial (ZMod q)) (h : A.degree < F.degree) :
    (A * P).degree < (F * P).degree := by
  rw [hP.degree_mul, hP.degree_mul]
  have hPne : P ≠ 0 := hP.ne_zero
  have hFne : F ≠ 0 := hF.ne_zero
  rw [Polynomial.degree_eq_natDegree hPne, Polynomial.degree_eq_natDegree hFne]
  rw [Polynomial.degree_eq_natDegree hFne] at h
  by_cases hA : A = 0
  · rw [hA, Polynomial.degree_zero, WithBot.bot_add]
    rw [← Nat.cast_add]
    exact WithBot.bot_lt_coe _
  · rw [Polynomial.degree_eq_natDegree hA] at h ⊢
    rw [← Nat.cast_add, ← Nat.cast_add, Nat.cast_lt]
    have : A.natDegree < F.natDegree := by exact_mod_cast h
    omega

/-- The reconstruction has degree strictly below the degree of the full
product of the factors. -/
theorem recon_degree_lt (hq : 1 < q) {factors crtCoeffs : List (Poly q)}
    (hmon : ∀ g ∈ factors, MonicL g) (w : List (Poly q)) :
    (toP (CRT_reconstruct factors crtCoeffs w)).degree
      < (toP (prodPolys factors)).degree := by
  haveI := nontrivial_zmod hq
  have hprodmon := monic_toP_prodPolys hmon
  have hbot : (⊥ : WithBot ℕ) < (toP (prodPolys factors)).degree := by
    rw [Polynomial.degree_eq_natDegree hprodmon.ne_zero]
    exact WithBot.bot_lt_coe _
  unfold CRT_reconstruct
  rw [toP_trim, toP_sum_mkL]
  apply lt_of_le_of_lt (Polynomial.degree_sum_le _ _)
  rw [Finset.sup_lt_iff hbot]
  intro i hi
  rw [Finset.mem_range] at hi
  have hFi : MonicL (getP factors i) := hmon _ (getP_mem hi)
  have hRest : (toP (prodPolys (factors.eraseIdx i))).Monic := by
    apply monic_toP_prodPolys
    intro g hg
    exact hmon g ((List.eraseIdx_sublist factors i).subset hg)
  rw [toP_polyMul, prod_getP_eraseIdx hi]
  exact degree_mul_lt_mul hRest (monic_toP hFi) (by assumption)
    (degree_toP_polyMod_lt hq hFi _)

/-- Pairwise-coprime-style divisibility: if every factor divides `D` and each
factor is coprime to the product of the others, the full product divides `D`. -/
theorem prod_dvd_of_residues {D : Polynomial (ZMod q)} :
    ∀ (factors : List (Poly q)),
    (∀ i, i < factors.length →
      IsCoprime (toP (getP factors i)) (toP (prodPolys (factors.eraseIdx i)))) →
    (∀ i, i < factors.length → toP (getP factors i) ∣ D) →
    toP (prodPolys factors) ∣ D := by
  intro factors
  induction factors with
  | nil =>
    intro _ _
    show toP ([1] : Poly q) ∣ D
    rw [toP_one]
    exact one_dvd D
  | cons f t ih =>
    intro hcop hdvd
    show toP (polyMul f (prodPolys t)) ∣ D
    rw [toP_polyMul]
    have hc0 : IsCoprime (toP f) (toP (prodPolys t)) := by
      have := hcop 0 (by simp)
      simpa using this
    have hd0 : toP f ∣ D := by simpa using hdvd 0 (by simp)
    have hrest : toP (prodPolys t) ∣ D := by
      apply ih
      · intro i hi
        have := hcop (i + 1) (by simpa using hi)
        simp only [getP_cons_succ, List.eraseIdx_cons_succ] at this
        have hmul : toP (prodPolys (f :: t.eraseIdx i))
            = toP f * toP (prodPolys (t.eraseIdx i)) := by
          show toP (polyMul f (prodPolys (t.eraseIdx i))) = _
          rw [toP_polyMul]
        rw [hmul] at this
        exact this.of_mul_right_right
      · intro i hi
        simpa using hdvd (i + 1) (by simpa using hi)
    exact hc0.mul_dvd hd0 hrest

/-- Round-trip, direction decompose-then-reconstruct: reconstructing the CRT
decomposition of a reduced ring element gives the element back. -/
theorem recon_decomp_eq (hq : 1 < q) {factors crtCoeffs : List (Poly q)}
    {PhimX : Poly q}
    (hmon : ∀ g ∈ factors, MonicL g)
    (hcs : ∀ i, i < factors.length →
      polyMod (polyMul (getP crtCoeffs i) (prodPolys (factors.eraseIdx i)))
        (getP factors i) = [1])
    (hprod : trim (prodPolys factors) = trim PhimX)
    (H : Poly q) (hH : trim H = H) (hHlen : H.length < (trim PhimX).length) :
    CRT_reconstruct factors crtCoeffs (CRT_decompose factors H) = H := by
  haveI := nontrivial_zmod hq
  have hprodP : toP (prodPolys factors) = toP (trim PhimX) := by
    rw [← toP_trim (prodPolys factors), hprod]
  have hprodmon := monic_toP_prodPolys hmon
  set H2 := CRT_reconstruct factors crtCoeffs (CRT_decompose factors H) with hH2
  have hres : ∀ k, k < factors.length →
      toP (getP factors k) ∣ (toP H2 - toP H) := by
    intro k hk
    have hFk : MonicL (getP factors k) := hmon _ (getP_mem hk)
    have hrr := recon_residue hq hmon hcs (CRT_decompose factors H) k hk
      (by rw [CRT_decompose, getP_map _ _ _ hk]
          exact polyMod_trimmed hq hFk H)
      (by rw [CRT_decompose, getP_map _ _ _ hk]
          exact polyMod_length_lt hq hFk H)
    rw [CRT_decompose, getP_map _ _ _ hk] at hrr
    rw [← polyMod_eq_iff hq hFk]
    exact hrr
  have hdvd : toP (prodPolys factors) ∣ (toP H2 - toP H) :=
    prod_dvd_of_residues factors (crt_coprime hq hmon hcs) hres
  have hdeg : (toP H2 - toP H).degree < (toP (prodPolys factors)).degree := by
    apply lt_of_le_of_lt (Polynomial.degree_sub_le _ _)
    rw [max_lt_iff]
    constructor
    · exact recon_degree_lt hq hmon _
    · rw [hprodP]
      have hne : trim PhimX ≠ [] := by
        intro he
        rw [he] at hHlen
        simp at hHlen
      have hne2 : trim (trim PhimX) ≠ [] := by rw [trim_trim]; exact hne
      have hdd := degree_toP_of_ne_nil hne2
      rw [trim_trim] at hdd
      rw [hdd]
      apply degree_toP_lt
      rw [hH]
      omega
  have hzero : toP H2 - toP H = 0 := by
    have hself := (Polynomial.modByMonic_eq_self_iff hprodmon).mpr hdeg
    have hz := (Polynomial.modByMonic_eq_zero_iff_dvd hprodmon).mpr hdvd
    rw [hself] at hz
    exact hz
  exact toP_inj (CRT_reconstruct_trimmed _ _ _) hH (by linear_combination hzero)

/-- Round-trip, direction reconstruct-then-decompose: decomposing the
reconstruction of a well-shaped residue vector gives the vector back. -/
theorem decomp_recon_eq (hq : 1 < q) {factors crtCoeffs : List (Poly q)}
    (hmon : ∀ g ∈ factors, MonicL g)
    (hcs : ∀ i, i < factors.length →
      polyMod (polyMul (getP crtCoeffs i) (prodPolys (factors.eraseIdx i)))
        (getP factors i) = [1])
    (v : List (Poly q)) (hvlen : v.length = factors.length)
    (hv : ∀ i, i < factors.length → trim (getP v i) = getP v i
      ∧ (getP v i).length < (trim (getP factors i)).length) :
    CRT_decompose factors (CRT_reconstruct factors crtCoeffs v) = v := by
  apply listP_ext
  · rw [CRT_decompose, List.length_map, hvlen]
  · intro i hi
    rw [CRT_decompose, List.length_map] at hi
    rw [CRT_decompose, getP_map _ _ _ hi]
    exact recon_residue hq hmon hcs v i hi (hv i hi).1 (hv i hi).2

end CRTCore

section ClaimC1

/-- Claim C1: for every ring element `H` reduced mod `PhimX` and mod `p^r`,
`CRT_reconstruct(CRT_decompose(H)) == H`; and for every per-slot residue
vector `v` of `nSlots` polynomials each of degree `< ordP`,
`CRT_decompose(CRT_reconstruct(v)) == v`.  The hypotheses are the
construction invariants of the residue-ring coder: the `nSlots` factors are
monic of degree `ordP`, their product is `PhimX` mod `p^r`, and `crtCoeffs`
satisfies its defining congruence `crtCoeffs[i] * prod_{j!=i} factors[j] == 1
mod factors[i]`. -/
theorem C1_crt_roundtrip (q : ℕ) (hq : 1 < q)
    (factors crtCoeffs : List (Poly q)) (PhimX : Poly q) (ordP : ℕ)
    (hmon : ∀ g ∈ factors, MonicL g)
    (hdeg : ∀ g ∈ factors, (trim g).length = ordP + 1)
    (hcs : ∀ i, i < factors.length →
      polyMod (polyMul (getP crtCoeffs i) (prodPolys (factors.eraseIdx i)))
        (getP factors i) = [1])
    (hprod : trim (prodPolys factors) = trim PhimX) :
    (∀ H : Poly q, trim H = H → H.length < (trim PhimX).length →
      CRT_reconstruct factors crtCoeffs (CRT_decompose factors H) = H)
    ∧ (∀ v : List (Poly q), v.length = factors.length →
      (∀ i, i < factors.length →
        trim (getP v i) = getP v i ∧ (getP v i).length ≤ ordP) →
      CRT_decompose factors (CRT_reconstruct factors crtCoeffs v) = v) := by
  constructor
  · intro H hH hHlen
    exact recon_decomp_eq hq hmon hcs hprod H hH hHlen
  · intro v hvlen hv
    apply decomp_recon_eq hq hmon hcs v hvlen
    intro i hi
    refine ⟨(hv i hi).1, ?_⟩
    rw [hdeg (getP factors i) (getP_mem hi)]
    have := (hv i hi).2
    omega

/-- Witness for C1 at the concrete coder with modulus 3,
`factors = [X+2, X+1]`, `PhimX = X^2 + 2`, `crtCoeffs = [2, 1]`. -/
theorem C1_crt_roundtrip_witness :
    CRT_reconstruct [[2, 1], [1, 1]] [[2], [1]]
        (CRT_decompose ([[2, 1], [1, 1]] : List (Poly 3)) [0, 1]) = [0, 1]
    ∧ CRT_decompose [[2, 1], [1, 1]]
        (CRT_reconstruct ([[2, 1], [1, 1]] : List (Poly 3)) [[2], [1]] [[1], [2]])
        = [[1], [2]] :=
  ⟨(C1_crt_roundtrip 3 (by decide) [[2, 1], [1, 1]] [[2], [1]] [2, 0, 1] 1
      (by decide) (by decide) (by decide) (by decide)).1 [0, 1] (by decide) (by decide),
   (C1_crt_roundtrip 3 (by decide) [[2, 1], [1, 1]] [[2], [1]] [2, 0, 1] 1
      (by decide) (by decide) (by decide) (by decide)).2 [[1], [2]] (by decide)
      (by decide)⟩

end ClaimC1

section ClaimC2

/-- Modelled from the spec: `embedInSlots(alphas, mappingData)` — the
implementation file is not under `src/`; per spec section 4.3 it is the
per-slot linear substitution carried by the mapping data (abstracted here as
`emb i`, reduced mod the slot's factor) composed with `CRT_reconstruct`. -/
def embedInSlots (factors crtCoeffs : List (Poly q))
    (emb : ℕ → Poly q → Poly q) (alphas : List (Poly q)) : Poly q :=
  CRT_reconstruct factors crtCoeffs
    (mkL factors.length (fun i => polyMod (emb i (getP alphas i)) (getP factors i)))

/-- Modelled from the spec: `decodePlaintext(H, mappingData)` — the
implementation file is not under `src/`; per spec section 4.3 it is
`CRT_decompose` followed by the per-slot inverse substitution (the mapping
data's `rmaps`, abstracted here as `dec i`). -/
def decodePlaintext (factors : List (Poly q)) (dec : ℕ → Poly q → Poly q)
    (H : Poly q) : List (Poly q) :=
  mkL factors.length (fun i => dec i (polyMod H (getP factors i)))

/-- Claim C2: for every mapping data produced by `mapToSlots(G)` and every
per-slot vector `v` of `nSlots` polynomials each of degree `< deg(G)`,
`decodePlaintext(embedInSlots(v, md), md) == v`.  The mapping data is
abstracted by its per-slot embedding `emb` and inverse substitution `dec`,
whose defining property (established by `mapToSlots`) is the hypothesis
`hinv`; the coder invariants are as in the CRT claims. -/
theorem C2_embed_decode (q : ℕ) (hq : 1 < q)
    (factors crtCoeffs : List (Poly q))
    (emb dec : ℕ → Poly q → Poly q) (degG : ℕ)
    (hmon : ∀ g ∈ factors, MonicL g)
    (hcs : ∀ i, i < factors.length →
      polyMod (polyMul (getP crtCoeffs i) (prodPolys (factors.eraseIdx i)))
        (getP factors i) = [1])
    (hinv : ∀ i, i < factors.length → ∀ α : Poly q, trim α = α →
      α.length ≤ degG → dec i (polyMod (emb i α) (getP factors i)) = α) :
    ∀ v : List (Poly q), v.length = factors.length →
      (∀ i, i < factors.length →
        trim (getP v i) = getP v i ∧ (getP v i).length ≤ degG) →
      decodePlaintext factors dec (embedInSlots factors crtCoeffs emb v) = v := by
  intro v hvlen hv
  unfold decodePlaintext embedInSlots
  apply listP_ext
  · rw [length_mkL, hvlen]
  · intro i hi
    rw [length_mkL] at hi
    rw [getP_mkL _ _ _ hi]
    have hFi : MonicL (getP factors i) := hmon _ (getP_mem hi)
    have hres := recon_residue hq hmon hcs
      (mkL factors.length (fun i => polyMod (emb i (getP v i)) (getP factors i)))
      i hi
      (by rw [getP_mkL _ _ _ hi]; exact polyMod_trimmed hq hFi _)
      (by rw [getP_mkL _ _ _ hi]; exact polyMod_length_lt hq hFi _)
    rw [hres, getP_mkL _ _ _ hi]
    exact hinv i hi (getP v i) (hv i hi).1 (hv i hi).2

/-- Witness for C2 at the concrete two-slot coder over `Z/3` with `G = X`
(degree 1) and identity slot substitutions. -/
theorem C2_embed_decode_witness :
    decodePlaintext [[2, 1], [1, 1]] (fun _ h3 => h3)
      (embedInSlots ([[2, 1], [1, 1]] : List (Poly 3)) [[2], [1]]
        (fun _ a => a) [[1], [2]]) = [[1], [2]] := by
  have key : ∀ i, i < 2 → ∀ c : ZMod 3,
      polyMod [c] (getP ([[2, 1], [1, 1]] : List (Poly 3)) i) = trim [c] := by
    decide
  refine C2_embed_decode 3 (by decide) [[2, 1], [1, 1]] [[2], [1]]
    (fun _ a => a) (fun _ h3 => h3) 1 (by decide) (by decide)
    ?_ [[1], [2]] (by decide) (by decide)
  intro i hi α hα hlen
  rcases α with _ | ⟨c, rest⟩
  · show polyMod [] (getP ([[2, 1], [1, 1]] : List (Poly 3)) i) = []
    revert hi
    revert i
    decide
  · rcases rest with _ | ⟨d, rest2⟩
    · show polyMod [c] (getP ([[2, 1], [1, 1]] : List (Poly 3)) i) = [c]
      rw [key i (by simpa using hi) c]
      exact hα
    · simp at hlen

end ClaimC2

section ClaimC5

/-- Generic positional getter with an explicit default. -/
def getL {α : Type} (d : α) : List α → ℕ → α
  | [], _ => d
  | a :: _, 0 => a
  | _ :: l, n + 1 => getL d l n

@[simp] theorem getL_nil {α : Type} (d : α) (i : ℕ) : getL d [] i = d := rfl

@[simp] theorem getL_cons_zero {α : Type} (d a : α) (l : List α) :
    getL d (a :: l) 0 = a := rfl

@[simp] theorem getL_cons_succ {α : Type} (d a : α) (l : List α) (n : ℕ) :
    getL d (a :: l) (n + 1) = getL d l n := rfl

theorem getL_append_lt {α : Type} (d : α) (l l2 : List α) (i : ℕ)
    (h : i < l.length) : getL d (l ++ l2) i = getL d l i := by
  induction l generalizing i with
  | nil => simp at h
  | cons a l ih =>
    cases i with
    | zero => simp
    | succ n => simpa using ih n (by simpa using h)

theorem getL_append_right {α : Type} (d : α) (l l2 : List α) (i : ℕ) :
    getL d (l ++ l2) (l.length + i) = getL d l2 i := by
  induction l with
  | nil => simp
  | cons a l ih =>
    have hieq : (a :: l).length + i = (l.length + i) + 1 := by
      simp; omega
    rw [hieq]
    simpa using ih

theorem getL_mkL {α : Type} (d : α) (n : ℕ) (f : ℕ → α) (i : ℕ) (h : i < n) :
    getL d (mkL n f) i = f i := by
  induction n with
  | zero => omega
  | succ m ih =>
    rw [mkL_succ]
    rcases Nat.lt_or_ge i m with hlt | hge
    · rw [getL_append_lt _ _ _ _ (by simpa using hlt)]
      exact ih hlt
    · have him : i = m := by omega
      have h2 := getL_append_right d (mkL m f) [f m] 0
      simp only [length_mkL, Nat.add_zero, getL_cons_zero] at h2
      rw [him]
      exact h2

/-- Dimension size of the `i`-th hypercube dimension (1 beyond the list). -/
def nthN : List ℕ → ℕ → ℕ
  | [], _ => 1
  | a :: _, 0 => a
  | _ :: l, n + 1 => nthN l n

/-- Modelled from the spec: the hypercube coordinate translation of
`CubeSignature` (hypercube.h is not under `src/`); per spec section 3 a
signature index maps to coordinates by mixed-radix decomposition with
invariant `idx == sum(coord_i * prod(d_(i+1)..))`. -/
def coordOf (ords : List ℕ) (i idx : ℕ) : ℕ :=
  (idx / (ords.drop (i + 1)).prod) % nthN ords i

/-- Modelled from the spec: `genMaskTable` of the residue-ring coder
(implementation not under `src/`); per spec section 4.3 step 4,
`maskTable[i][j]` is the CRT reconstruction of the 0/1 residue vector that
is 1 exactly in the slots whose `i`-th hypercube coordinate is `>= j`,
with `j` ranging over `0..=order(gens[i])`. -/
def maskTable (factors crtCoeffs : List (Poly q)) (ords : List ℕ) :
    List (List (Poly q)) :=
  mkL ords.length (fun i =>
    mkL (nthN ords i + 1) (fun j =>
      CRT_reconstruct factors crtCoeffs
        (mkL factors.length (fun idx =>
          if j ≤ coordOf ords i idx then [1] else []))))

/-- Claim C5: `maskTable` has `numOfGens()` rows, row `i` has `OrderOf(i)+1`
entries, and `maskTable[i][j]` decoded at slot `idx` is 1 iff the `i`-th
hypercube coordinate of `idx` is `>= j`, else 0.  The coder invariants
(monic factors of degree `>= 1`, crtCoeffs congruence) are hypotheses. -/
theorem C5_maskTable (q : ℕ) (hq : 1 < q)
    (factors crtCoeffs : List (Poly q)) (ords : List ℕ)
    (hmon : ∀ g ∈ factors, MonicL g)
    (hdeg : ∀ g ∈ factors, 2 ≤ (trim g).length)
    (hcs : ∀ i, i < factors.length →
      polyMod (polyMul (getP crtCoeffs i) (prodPolys (factors.eraseIdx i)))
        (getP factors i) = [1]) :
    (maskTable factors crtCoeffs ords).length = ords.length
    ∧ (∀ i, i < ords.length →
        (getL [] (maskTable factors crtCoeffs ords) i).length = nthN ords i + 1)
    ∧ (∀ i, i < ords.length → ∀ j, j ≤ nthN ords i →
        ∀ idx, idx < factors.length →
        getP (CRT_decompose factors
            (getP (getL [] (maskTable factors crtCoeffs ords) i) j)) idx
          = if j ≤ coordOf ords i idx then [1] else []) := by
  haveI := nontrivial_zmod hq
  have hone : trim ([1] : Poly q) = [1] := by
    rw [trim_cons_of_nil 1 trim_nil, if_neg (one_ne_zero)]
  refine ⟨by rw [maskTable, length_mkL], ?_, ?_⟩
  · intro i hi
    rw [maskTable, getL_mkL _ _ _ _ hi, length_mkL]
  · intro i hi j hj idx hidx
    rw [maskTable, getL_mkL _ _ _ _ hi]
    have hjlt : j < nthN ords i + 1 := by omega
    have hgetPmk : ∀ (n : ℕ) (f : ℕ → Poly q) (k : ℕ), k < n →
        getP (mkL n f) k = f k := getP_mkL
    rw [show getP (mkL (nthN ords i + 1) (fun j =>
        CRT_reconstruct factors crtCoeffs
          (mkL factors.length (fun idx =>
            if j ≤ coordOf ords i idx then [1] else [])))) j
      = CRT_reconstruct factors crtCoeffs
          (mkL factors.length (fun idx =>
            if j ≤ coordOf ords i idx then [1] else []))
      from hgetPmk _ _ _ hjlt]
    rw [CRT_decompose, getP_map _ _ _ hidx]
    have hFidx : MonicL (getP factors idx) := hmon _ (getP_mem hidx)
    have hres := recon_residue hq hmon hcs
      (mkL factors.length (fun idx =>
        if j ≤ coordOf ords i idx then ([1] : Poly q) else []))
      idx hidx
      (by rw [getP_mkL _ _ _ hidx]
          by_cases hc : j ≤ coordOf ords i idx
          · rw [if_pos hc]; exact hone
          · rw [if_neg hc]; exact trim_nil)
      (by rw [getP_mkL _ _ _ hidx]
          have h2 := hdeg _ (getP_mem hidx)
          by_cases hc : j ≤ coordOf ords i idx
          · rw [if_pos hc]; simpa using h2
          · rw [if_neg hc]; simp; omega)
    rw [hres, getP_mkL _ _ _ hidx]

/-- Witness for C5 at the concrete two-slot coder over `Z/3` with one
hypercube dimension of order 2 (slot `idx` has coordinate `idx`). -/
theorem C5_maskTable_witness :
    (maskTable ([[2, 1], [1, 1]] : List (Poly 3)) [[2], [1]] [2]).length = 1
    ∧ (getL [] (maskTable ([[2, 1], [1, 1]] : List (Poly 3)) [[2], [1]] [2]) 0).length = 3
    ∧ getP (CRT_decompose [[2, 1], [1, 1]]
        (getP (getL [] (maskTable ([[2, 1], [1, 1]] : List (Poly 3)) [[2], [1]] [2]) 0) 1)) 1
        = [1]
    ∧ getP (CRT_decompose [[2, 1], [1, 1]]
        (getP (getL [] (maskTable ([[2, 1], [1, 1]] : List (Poly 3)) [[2], [1]] [2]) 0) 1)) 0
        = [] := by
  have hc5 := C5_maskTable 3 (by decide) [[2, 1], [1, 1]] [[2], [1]] [2]
    (by decide) (by decide) (by decide)
  refine ⟨hc5.1, hc5.2.1 0 (by decide), ?_, ?_⟩
  · have := hc5.2.2 0 (by decide) 1 (by decide) 1 (by decide)
    simpa using this
  · have := hc5.2.2 0 (by decide) 1 (by decide) 0 (by decide)
    simpa using this

end ClaimC5

section ClaimC7

open Polynomial

/-- The monomial `X^e` as a coefficient list. -/
def XpowL (e : ℕ) : Poly q := monomialL e 1

/-- Substitution `h(u)`: compose the polynomial `h` with the polynomial `u`
(used for the Frobenius substitutions `h(X^(p^j))`). -/
def composeL (h u : Poly q) : Poly q :=
  h.foldr (fun a acc => polyAdd [a] (polyMul u acc)) []

theorem toP_composeL (h u : Poly q) :
    toP (composeL h u) = ∑ i ∈ Finset.range h.length, C (coeff h i) * (toP u) ^ i := by
  induction h with
  | nil => simp [composeL]
  | cons a h ih =>
    show toP (polyAdd [a] (polyMul u (composeL h u))) = _
    rw [toP_polyAdd, toP_polyMul, ih]
    rw [List.length_cons, Finset.sum_range_succ']
    simp only [coeff_cons_succ, coeff_cons_zero, pow_zero, mul_one]
    rw [Finset.mul_sum]
    have hterm : ∀ i, toP u * (C (coeff h i) * toP u ^ i)
        = C (coeff h i) * toP u ^ (i + 1) := by
      intro i
      rw [pow_succ]
      ring
    rw [Finset.sum_congr rfl (fun i _ => hterm i)]
    have hA : toP ([a] : Poly q) = C a := by simp
    rw [hA]
    ring

/-- Modelled from the spec: the defining linear system solved by
`buildLinPolyCoeffs` (implementation not under `src/`) — per PAlgebra.h lines
728-738, `L` describes the linear map `M` on the power basis by
`M(x^i mod G) = L[i] mod G`, and the returned `C` satisfies the
Vandermonde-like system making `M = sum_j C_j Frobenius^j`, whose equations
on the basis are `L[i] == sum_j C[j] * X^(i*p^j) (mod G)`. -/
def buildLinPolyCoeffsSystem (p d : ℕ) (G : Poly q) (L Cf : List (Poly q)) : Prop :=
  ∀ i, i < d → polyMod (getP L i) G
    = polyMod (sumPolys (mkL d (fun j =>
        polyMul (getP Cf j) (XpowL (i * p ^ j))))) G

/-- Modelled from the spec: the linear map `M` described by `L` on the power
basis, extended to any `h` of degree `< d` by linearity:
`M(h) = sum_i h_i * L[i]`. -/
def applyLinMap (d : ℕ) (L : List (Poly q)) (h : Poly q) : Poly q :=
  sumPolys (mkL d (fun i => polySmul (coeff h i) (getP L i)))

/-- Claim C7: for every valid mapping data for `G` with `d = deg(G)` and every
list `L` of `d` polynomials describing a linear map `M` by
`M(x^j mod G) = L[j] mod G`, the coefficients `C` returned by
`buildLinPolyCoeffs` (characterized by the linear system it solves) satisfy,
for every `h` of degree `< d`,
`M(h(X) mod G) = sum_j (C[j] mod G) * (h(X^(p^j)) mod G)`. -/
theorem C7_buildLinPolyCoeffs (q : ℕ) (hq : 1 < q) (p d : ℕ) (G : Poly q)
    (hG : MonicL G) (L Cf : List (Poly q))
    (hsys : buildLinPolyCoeffsSystem p d G L Cf) :
    ∀ h : Poly q, h.length ≤ d →
      polyMod (applyLinMap d L h) G
        = polyMod (sumPolys (mkL d (fun j =>
            polyMul (getP Cf j) (composeL h (XpowL (p ^ j)))))) G := by
  intro h hlen
  rw [polyMod_eq_iff hq hG]
  have hXe : ∀ e : ℕ, toP (XpowL e : Poly q) = X ^ e := by
    intro e
    rw [XpowL, toP_monomialL, map_one, one_mul]
  have hinner : ∀ i, toP (sumPolys (mkL d (fun j =>
      polyMul (getP Cf j) (XpowL (i * p ^ j))))) =
      ∑ j ∈ Finset.range d, toP (getP Cf j) * X ^ (i * p ^ j) := by
    intro i
    rw [toP_sum_mkL]
    apply Finset.sum_congr rfl
    intro j _
    rw [toP_polyMul, hXe]
  have hdvd : ∀ i ∈ Finset.range d, toP G ∣
      C (coeff h i) * (toP (getP L i)
        - ∑ j ∈ Finset.range d, toP (getP Cf j) * X ^ (i * p ^ j)) := by
    intro i hi
    rw [Finset.mem_range] at hi
    apply Dvd.dvd.mul_left
    rw [← hinner i]
    rw [← polyMod_eq_iff hq hG]
    exact hsys i hi
  have hsum := Finset.dvd_sum hdvd
  have heq : toP (applyLinMap d L h)
      - toP (sumPolys (mkL d (fun j =>
          polyMul (getP Cf j) (composeL h (XpowL (p ^ j))))))
      = ∑ i ∈ Finset.range d, C (coeff h i) * (toP (getP L i)
        - ∑ j ∈ Finset.range d, toP (getP Cf j) * X ^ (i * p ^ j)) := by
    have hL : toP (applyLinMap d L h)
        = ∑ i ∈ Finset.range d, C (coeff h i) * toP (getP L i) := by
      rw [applyLinMap, toP_sum_mkL]
      exact Finset.sum_congr rfl (fun i _ => toP_polySmul _ _)
    have hR : toP (sumPolys (mkL d (fun j =>
        polyMul (getP Cf j) (composeL h (XpowL (p ^ j))))))
        = ∑ i ∈ Finset.range d, C (coeff h i) *
            (∑ j ∈ Finset.range d, toP (getP Cf j) * X ^ (i * p ^ j)) := by
      rw [toP_sum_mkL]
      have hterm : ∀ j, toP (polyMul (getP Cf j) (composeL h (XpowL (p ^ j))))
          = ∑ i ∈ Finset.range d, toP (getP Cf j) * (C (coeff h i) * X ^ (i * p ^ j)) := by
        intro j
        rw [toP_polyMul, toP_composeL, hXe]
        have hext : ∑ i ∈ Finset.range h.length, C (coeff h i) * (X ^ p ^ j : Polynomial (ZMod q)) ^ i
            = ∑ i ∈ Finset.range d, C (coeff h i) * (X ^ p ^ j) ^ i := by
          apply Finset.sum_subset (Finset.range_subset.mpr hlen)
          intro i _ hnot
          rw [Finset.mem_range, not_lt] at hnot
          rw [coeff_eq_zero_of_length_le hnot]
          simp
        rw [hext, Finset.mul_sum]
        apply Finset.sum_congr rfl
        intro i _
        rw [← pow_mul, Nat.mul_comm (p ^ j) i]
      rw [Finset.sum_congr rfl (fun j _ => hterm j), Finset.sum_comm]
      apply Finset.sum_congr rfl
      intro i _
      rw [Finset.mul_sum]
      apply Finset.sum_congr rfl
      intro j _
      ring
    rw [hL, hR, ← Finset.sum_sub_distrib]
    apply Finset.sum_congr rfl
    intro i _
    ring
  rw [heq]
  exact hsum

/-- Witness for C7 over `Z/2` with `G = X^2 + X + 1`, `p = 2`, `d = 2`,
`L = [1, X]` (the identity map) and `C = [1, 0]`, applied to `h = X`. -/
theorem C7_buildLinPolyCoeffs_witness :
    polyMod (applyLinMap 2 [[1], [0, 1]] ([0, 1] : Poly 2)) [1, 1, 1]
      = polyMod (sumPolys (mkL 2 (fun j =>
          polyMul (getP ([[1], []] : List (Poly 2)) j)
            (composeL [0, 1] (XpowL (2 ^ j)))))) [1, 1, 1] :=
  C7_buildLinPolyCoeffs 2 (by decide) 2 2 [1, 1, 1] (by decide)
    [[1], [0, 1]] [[1], []]
    (by unfold buildLinPolyCoeffsSystem; decide) [0, 1] (by decide)

end ClaimC7

section ClaimC3

/-- Whether an `Except` result is a success. -/
def isOkE {ε α : Type} : Except ε α → Bool
  | Except.ok _ => true
  | Except.error _ => false

/-- All residues mod `p`, as a list. -/
def elemsZ (p : ℕ) : List (ZMod p) := (List.range p).map (fun k => (k : ZMod p))

/-- All coefficient lists of the given length over `Z/p`. -/
def coeffLists (p : ℕ) : ℕ → List (Poly p)
  | 0 => [[]]
  | k + 1 => (coeffLists p k).flatMap (fun t => (elemsZ p).map (fun c => c :: t))

/-- All monic coefficient lists of the given degree over `Z/p`. -/
def monicPolysOfDeg (p k : ℕ) : List (Poly p) :=
  (coeffLists p k).map (fun t => t ++ [(1 : ZMod p)])

/-- Reduction of a mod-`p^r` coefficient list to a mod-`p` one. -/
def reduceModP (p : ℕ) (G : Poly q) : Poly p := G.map (fun a => (a.val : ZMod p))

/-- Executable irreducibility check over `Z/p`: positive degree and no monic
divisor of any intermediate degree. -/
def irreducibleModP (p : ℕ) (g : Poly p) : Bool :=
  decide (2 ≤ (trim g).length) &&
    (List.range ((trim g).length - 2)).all (fun e =>
      (monicPolysOfDeg p (e + 1)).all (fun h2 => decide (polyMod g h2 ≠ [])))

/-- Modelled from the spec: the validity checking of
`mapToSlots(mappingData, G)` — the implementation file is not under `src/`;
per spec sections 4.3 and 7 (and the requirements stated at PAlgebra.h lines
682-698), the call fails fatally unless `G` is irreducible mod `p` with
`deg(G)` dividing `ordP`, and, when `r > 1`, `G` is additionally the identity
monomial `X` or the distinguished base factor `factors[0]`. -/
def mapToSlots (p r ordP : ℕ) (factors : List (Poly q)) (G : Poly q) :
    Except String Unit :=
  if irreducibleModP p (reduceModP p G) = false then
    Except.error "mapToSlots: G is not irreducible mod p"
  else if ¬ ((trim G).length - 1 ∣ ordP) then
    Except.error "mapToSlots: deg(G) does not divide ordP"
  else if 1 < r ∧ ¬ (G = [0, 1] ∨ G = getP factors 0) then
    Except.error "mapToSlots: when r > 1, G must be X or factors[0]"
  else Except.ok ()

/-- Claim C3: `mapToSlots(mappingData, G)` succeeds exactly when `G` is
irreducible mod `p` with degree dividing `ordP` and — when `r > 1` — `G` is
either the identity monomial `X` or the distinguished base factor
`factors[0]`; any `G` violating these conditions is rejected fatally at the
call. -/
theorem C3_mapToSlots_validity (q p r ordP : ℕ) (factors : List (Poly q))
    (G : Poly q) :
    isOkE (mapToSlots p r ordP factors G) = true
    ↔ (irreducibleModP p (reduceModP p G) = true
       ∧ (trim G).length - 1 ∣ ordP
       ∧ (1 < r → (G = [0, 1] ∨ G = getP factors 0))) := by
  unfold mapToSlots
  by_cases h1 : irreducibleModP p (reduceModP p G) = false
  · rw [if_pos h1]
    simp only [isOkE]
    simp [h1]
  · rw [if_neg h1]
    have h1t : irreducibleModP p (reduceModP p G) = true := by
      simpa using h1
    by_cases h2 : (trim G).length - 1 ∣ ordP
    · rw [if_neg (not_not_intro h2)]
      by_cases h3 : 1 < r ∧ ¬ (G = [0, 1] ∨ G = getP factors 0)
      · rw [if_pos h3]
        simp only [isOkE]
        constructor
        · intro hf
          simp at hf
        · rintro ⟨_, _, hr⟩
          exact absurd (hr h3.1) h3.2
      · rw [if_neg h3]
        simp only [isOkE]
        constructor
        · intro _
          refine ⟨h1t, h2, ?_⟩
          intro hr
          by_contra hno
          exact h3 ⟨hr, hno⟩
        · intro _
          trivial
    · rw [if_pos h2]
      simp only [isOkE]
      constructor
      · intro hf
        simp at hf
      · rintro ⟨_, hd, _⟩
        exact absurd hd h2

end ClaimC3

section ClaimC4

/-- Modelled from the spec: the multiplicative order of `p` mod `m`, computed
by repeated multiplication until `p^k == 1 (mod m)` (spec section 4.2 step 1);
`0` if no exponent up to `m` works (impossible for valid parameters). -/
def multOrd (m p : ℕ) : ℕ :=
  (((List.range m).map (fun k => k + 1)).find?
    (fun k => p ^ k % m == 1)).getD 0

/-- Claim C4: each constructed residue-ring coder over the index algebra
`(m, p)` with exponent `r` satisfies `nSlots == phiM / ordP`; its `factors`
list has exactly `nSlots` entries; `deg(factors[i]) == ordP` for every `i`;
and the product of all factors is congruent to `PhimX` mod `p^r` up to a
unit.  The constructor (not under `src/`) is modelled by its spec-stated
construction steps: `phiM` is Euler's totient, `ordP` the multiplicative
order, `nSlots` the hypercube size spanning the quotient group, and the
factorization invariants of spec section 3. -/
theorem C4_coder_invariants (m p r : ℕ) (q : ℕ) (hqpr : q = p ^ r)
    (ords : List ℕ) (factors : List (Poly q)) (PhimX : Poly q)
    (phiM ordP nSlots : ℕ)
    (hphi : phiM = Nat.totient m)
    (hord : ordP = multOrd m p)
    (hns : nSlots = ords.prod)
    (hcube : nSlots * ordP = phiM)
    (hordpos : 0 < ordP)
    (hflen : factors.length = nSlots)
    (hfdeg : ∀ g ∈ factors, MonicL g ∧ (trim g).length = ordP + 1)
    (hfprod : trim (prodPolys factors) = trim PhimX) :
    nSlots = phiM / ordP
    ∧ factors.length = phiM / ordP
    ∧ (∀ i, i < factors.length → (trim (getP factors i)).length - 1 = ordP)
    ∧ (∃ u : ZMod q, IsUnit u
        ∧ trim (prodPolys factors) = trim (polySmul u PhimX)) := by
  have hdivv : nSlots = phiM / ordP := by
    rw [← hcube, Nat.mul_div_cancel _ hordpos]
  refine ⟨hdivv, by rw [hflen, hdivv], ?_, ?_⟩
  · intro i hi
    have := (hfdeg _ (getP_mem hi)).2
    omega
  · refine ⟨1, isUnit_one, ?_⟩
    have hsm : polySmul (1 : ZMod q) PhimX = PhimX := by
      unfold polySmul
      simp
    rw [hsm]
    exact hfprod

/-- Witness for C4 at the concrete coder `m = 5`, `p = 19`, `r = 1`
(`phiM = 4`, `ordP = 2`, two slots, `PhimX = X^4+X^3+X^2+X+1` splitting as
`(X^2+5X+1)(X^2+15X+1)` mod 19). -/
theorem C4_coder_invariants_witness :
    (2 : ℕ) = 4 / 2
    ∧ ([[1, 5, 1], [1, 15, 1]] : List (Poly 19)).length = 4 / 2
    ∧ (∀ i, i < ([[1, 5, 1], [1, 15, 1]] : List (Poly 19)).length →
        (trim (getP ([[1, 5, 1], [1, 15, 1]] : List (Poly 19)) i)).length - 1 = 2)
    ∧ (∃ u : ZMod 19, IsUnit u
        ∧ trim (prodPolys ([[1, 5, 1], [1, 15, 1]] : List (Poly 19)))
          = trim (polySmul u [1, 1, 1, 1, 1])) :=
  C4_coder_invariants 5 19 1 19 (by decide) [2] [[1, 5, 1], [1, 15, 1]]
    [1, 1, 1, 1, 1] 4 2 2 (by decide) (by decide) (by decide) (by decide)
    (by decide) (by decide) (by decide) (by decide)

end ClaimC4

section Tables

/-- Replace the element at a position (no effect out of range), as C++
`vector::operator[]` assignment. -/
def setAt {α : Type} : List α → ℕ → α → List α
  | [], _, _ => []
  | _ :: t, 0, v => v :: t
  | a :: t, n + 1, v => a :: setAt t n v

@[simp] theorem setAt_nil {α : Type} (n : ℕ) (v : α) : setAt [] n v = [] := rfl

@[simp] theorem setAt_cons_zero {α : Type} (a v : α) (t : List α) :
    setAt (a :: t) 0 v = v :: t := rfl

@[simp] theorem setAt_cons_succ {α : Type} (a v : α) (t : List α) (n : ℕ) :
    setAt (a :: t) (n + 1) v = a :: setAt t n v := rfl

@[simp] theorem length_setAt {α : Type} (l : List α) (n : ℕ) (v : α) :
    (setAt l n v).length = l.length := by
  induction l generalizing n with
  | nil => rfl
  | cons a t ih =>
    cases n with
    | zero => simp
    | succ k => simp [ih]

theorem getL_setAt_self {α : Type} (d : α) (l : List α) (pos : ℕ) (v : α)
    (h : pos < l.length) : getL d (setAt l pos v) pos = v := by
  induction l generalizing pos with
  | nil => simp at h
  | cons a t ih =>
    cases pos with
    | zero => simp
    | succ k => simpa using ih k (by simpa using h)

theorem getL_setAt_ne {α : Type} (d : α) (l : List α) (pos t : ℕ) (v : α)
    (h : t ≠ pos) : getL d (setAt l pos v) t = getL d l t := by
  induction l generalizing pos t with
  | nil => simp
  | cons a tl ih =>
    cases pos with
    | zero =>
      cases t with
      | zero => exact absurd rfl h
      | succ k => simp
    | succ k =>
      cases t with
      | zero => simp
      | succ j => simpa using ih k j (by omega)

theorem getL_replicate {α : Type} (d c : α) (m t : ℕ) :
    getL d (List.replicate m c) t = if t < m then c else d := by
  induction m generalizing t with
  | zero => simp
  | succ k ih =>
    cases t with
    | zero => simp [List.replicate_succ]
    | succ j =>
      rw [List.replicate_succ]
      simp only [getL_cons_succ, ih]
      by_cases hj : j < k
      · rw [if_pos hj, if_pos (by omega)]
      · rw [if_neg hj, if_neg (by omega)]

theorem getL_ge_length {α : Type} (d : α) (l : List α) (t : ℕ)
    (h : l.length ≤ t) : getL d l t = d := by
  induction l generalizing t with
  | nil => simp
  | cons a tl ih =>
    cases t with
    | zero => simp at h
    | succ j => simpa using ih j (by simpa using h)

/-- Modelled from the spec: building an inverse-lookup table (used by the
PAlgebra constructor, not under `src/`, for both `Tidx` and `zmsIdx`, spec
section 3): start from a table of `m` copies of the sentinel `-1` and set
entry `vals[i]` to `i` for each `i` in enumeration order. -/
def invTableAux : List ℕ → ℕ → List Int → List Int
  | [], _, acc => acc
  | v :: vs, start, acc => invTableAux vs (start + 1) (setAt acc v (start : Int))

def invTable (m : ℕ) (vals : List ℕ) : List Int :=
  invTableAux vals 0 (List.replicate m (-1 : Int))

theorem invTableAux_length (vals : List ℕ) (start : ℕ) (acc : List Int) :
    (invTableAux vals start acc).length = acc.length := by
  induction vals generalizing start acc with
  | nil => rfl
  | cons v vs ih =>
    show (invTableAux vs (start + 1) (setAt acc v (start : Int))).length = _
    rw [ih, length_setAt]

theorem invTableAux_not_mem (vals : List ℕ) (start : ℕ) (acc : List Int)
    (t : ℕ) (ht : t ∉ vals) :
    getL (-1) (invTableAux vals start acc) t = getL (-1) acc t := by
  induction vals generalizing start acc with
  | nil => rfl
  | cons v vs ih =>
    show getL (-1) (invTableAux vs (start + 1) (setAt acc v (start : Int))) t = _
    rw [ih _ _ (fun hmem => ht (by simp [hmem]))]
    exact getL_setAt_ne _ _ _ _ _ (fun he => ht (by simp [he]))

theorem invTableAux_hit (vals : List ℕ) (start : ℕ) (acc : List Int)
    (hnodup : vals.Nodup) (hlt : ∀ v ∈ vals, v < acc.length) :
    ∀ i, i < vals.length →
      getL (-1) (invTableAux vals start acc) (getL 0 vals i) = ((start + i : ℕ) : Int) := by
  induction vals generalizing start acc with
  | nil =>
    intro i hi
    simp at hi
  | cons v vs ih =>
    intro i hi
    show getL (-1) (invTableAux vs (start + 1) (setAt acc v (start : Int))) _ = _
    cases i with
    | zero =>
      simp only [getL_cons_zero, Nat.add_zero]
      have hnd := List.nodup_cons.mp hnodup
      rw [invTableAux_not_mem vs (start + 1) _ v hnd.1]
      exact getL_setAt_self _ _ _ _ (by simpa using hlt v (by simp))
    | succ j =>
      simp only [getL_cons_succ]
      have hnd := List.nodup_cons.mp hnodup
      have hres := ih (start + 1) (setAt acc v (start : Int)) hnd.2
        (by intro w hw
            rw [length_setAt]
            exact hlt w (by simp [hw]))
        j (by simpa using hi)
      rw [hres]
      congr 1
      omega

theorem invTable_hit (m : ℕ) (vals : List ℕ) (hnodup : vals.Nodup)
    (hlt : ∀ v ∈ vals, v < m) (i : ℕ) (hi : i < vals.length) :
    getL (-1) (invTable m vals) (getL 0 vals i) = (i : Int) := by
  have h := invTableAux_hit vals 0 (List.replicate m (-1 : Int)) hnodup
    (by simpa using hlt) i hi
  simpa using h

theorem invTable_miss (m : ℕ) (vals : List ℕ) (t : ℕ) (ht : t ∉ vals) :
    getL (-1) (invTable m vals) t = -1 := by
  rw [invTable, invTableAux_not_mem _ _ _ _ ht, getL_replicate, ite_self]

theorem getL_mem {α : Type} (d : α) {l : List α} {i : ℕ} (h : i < l.length) :
    getL d l i ∈ l := by
  induction l generalizing i with
  | nil => simp at h
  | cons a t ih =>
    cases i with
    | zero => simp
    | succ n => simpa using Or.inr (ih (by simpa using h))

theorem mem_mkL {α : Type} {n : ℕ} {f : ℕ → α} {a : α} :
    a ∈ mkL n f ↔ ∃ i, i < n ∧ f i = a := by
  induction n with
  | zero => simp
  | succ m ih =>
    rw [mkL_succ]
    simp only [List.mem_append, List.mem_singleton, ih]
    constructor
    · rintro (⟨i, hi, he⟩ | he)
      · exact ⟨i, by omega, he⟩
      · exact ⟨m, by omega, he.symm⟩
    · rintro ⟨i, hi, he⟩
      rcases Nat.lt_or_ge i m with hlt | hge
      · exact Or.inl ⟨i, hlt, he⟩
      · have : i = m := by omega
        subst this
        exact Or.inr he.symm

/-- Modelled from the spec: `T[idx] = prod_i gens[i]^(coord_i(idx)) mod m` --
the representative associated to hypercube index `idx` (spec section 3; the
PAlgebra constructor computing it is not under `src/`). -/
def Trep (m : ℕ) (gens ords : List ℕ) (idx : ℕ) : ℕ :=
  (mkL gens.length (fun i => getL 0 gens i ^ coordOf ords i idx)).prod % m

/-- Modelled from the spec: the list `T` of the `nSlots = prod(ords)` coset
representatives, enumerated in hypercube-coordinate lexicographic order. -/
def Tlist (m : ℕ) (gens ords : List ℕ) : List ℕ :=
  mkL ords.prod (Trep m gens ords)

/-- Modelled from the spec: the `Tidx` table, the inverse of `T` over `[0,m)`
with `-1` where undefined. -/
def TidxTable (m : ℕ) (gens ords : List ℕ) : List Int :=
  invTable m (Tlist m gens ords)

/-- Modelled from the spec: the ordered list of residues of `(Z/mZ)*`
(spec section 4.2 step 4). -/
def zmsList (m : ℕ) : List ℕ :=
  (List.range m).filter (fun t => decide (Nat.Coprime t m))

/-- Modelled from the spec: the `zmsIdx` dense-index table over `[0,m)`,
`-1` for residues not coprime to `m`. -/
def zmsIdxTable (m : ℕ) : List Int := invTable m (zmsList m)

/-- Embeds `PAlgebra::indexOfRep` (PAlgebra.h line 236):
`return (t > 0 && t < m) ? Tidx[t] : -1;` — a total function, no throw. -/
def indexOfRep (m : ℕ) (Tidx : List Int) (t : Int) : Int :=
  if 0 < t ∧ t < (m : Int) then getL (-1) Tidx t.toNat else -1

/-- Embeds `PAlgebra::indexInZmstar` (PAlgebra.h line 242):
`return (t > 0 && t < m) ? zmsIdx[t] : -1;` — a total function, no throw. -/
def indexInZmstar (m : ℕ) (zmsIdx : List Int) (t : Int) : Int :=
  if 0 < t ∧ t < (m : Int) then getL (-1) zmsIdx t.toNat else -1

theorem mem_zmsList {m t : ℕ} : t ∈ zmsList m ↔ t < m ∧ Nat.Coprime t m := by
  rw [zmsList, List.mem_filter, List.mem_range, decide_eq_true_iff]

theorem zmsList_nodup (m : ℕ) : (zmsList m).Nodup :=
  (List.nodup_range m).filter _

theorem Tlist_lt (m : ℕ) (gens ords : List ℕ) (hm : 0 < m) :
    ∀ v ∈ Tlist m gens ords, v < m := by
  intro v hv
  rw [Tlist, mem_mkL] at hv
  obtain ⟨idx, _, he⟩ := hv
  rw [← he, Trep]
  exact Nat.mod_lt _ hm

end Tables

section ClaimC6

/-- Claim C6: for every constructed index algebra, `T` lists the `nSlots`
coset representatives in hypercube-coordinate lexicographic order with
`T[idx] = prod_i gens[i]^(coord_i(idx)) mod m`, and `Tidx` is its exact
inverse: `Tidx[T[i]] == i` for every `i < nSlots` and `Tidx[t] == -1` for
every `t` in the domain not in `T`.  The constructor (not under `src/`)
guarantees the representatives are distinct (`hnodup`). -/
theorem C6_T_enumeration (m : ℕ) (gens ords : List ℕ) (hm : 0 < m)
    (hnodup : (Tlist m gens ords).Nodup) :
    (Tlist m gens ords).length = ords.prod
    ∧ (∀ idx, idx < ords.prod →
        getL 0 (Tlist m gens ords) idx
          = (mkL gens.length (fun i => getL 0 gens i ^ coordOf ords i idx)).prod % m)
    ∧ (∀ i, i < (Tlist m gens ords).length →
        getL (-1) (TidxTable m gens ords) (getL 0 (Tlist m gens ords) i) = (i : Int))
    ∧ (∀ t, t < m → t ∉ Tlist m gens ords →
        getL (-1) (TidxTable m gens ords) t = -1) := by
  refine ⟨by rw [Tlist, length_mkL], ?_, ?_, ?_⟩
  · intro idx hidx
    rw [Tlist, getL_mkL _ _ _ _ hidx, Trep]
  · intro i hi
    rw [TidxTable]
    exact invTable_hit m _ hnodup (Tlist_lt m gens ords hm) i hi
  · intro t _ htnot
    rw [TidxTable]
    exact invTable_miss m _ t htnot

/-- Witness for C6 at `m = 5`, one generator `2` of order 2:
`T = [1, 2]`, `Tidx = [-1, 0, 1, -1, -1]`. -/
theorem C6_T_enumeration_witness :
    (Tlist 5 [2] [2]).length = [2].prod
    ∧ getL (-1) (TidxTable 5 [2] [2]) (getL 0 (Tlist 5 [2] [2]) 1) = (1 : Int)
    ∧ getL (-1) (TidxTable 5 [2] [2]) 3 = -1 := by
  have h := C6_T_enumeration 5 [2] [2] (by decide) (by decide)
  exact ⟨h.1, h.2.2.1 1 (by decide), h.2.2.2 3 (by decide) (by decide)⟩

end ClaimC6

section ClaimC8

/-- Claim C8: the lookup accessors report a missing entry by the sentinel
`-1` and never throw: `indexOfRep(t) == -1` whenever `t <= 0`, `t >= m`, or
`t` is not in `T`, and `indexInZmstar(t) == -1` whenever `t <= 0`, `t >= m`,
or `t` is not coprime to `m`; otherwise each returns the stored index. -/
theorem C8_lookup_sentinels (m : ℕ) (gens ords : List ℕ) (hm : 1 < m)
    (hnodup : (Tlist m gens ords).Nodup) :
    (∀ t : Int, t ≤ 0 ∨ (m : Int) ≤ t ∨ t.toNat ∉ Tlist m gens ords →
        indexOfRep m (TidxTable m gens ords) t = -1)
    ∧ (∀ i, i < (Tlist m gens ords).length → 0 < getL 0 (Tlist m gens ords) i →
        indexOfRep m (TidxTable m gens ords)
          ((getL 0 (Tlist m gens ords) i : ℕ) : Int) = (i : Int))
    ∧ (∀ t : Int, t ≤ 0 ∨ (m : Int) ≤ t ∨ ¬ Nat.Coprime t.toNat m →
        indexInZmstar m (zmsIdxTable m) t = -1)
    ∧ (∀ i, i < (zmsList m).length →
        indexInZmstar m (zmsIdxTable m) ((getL 0 (zmsList m) i : ℕ) : Int) = (i : Int)) := by
  have hm0 : 0 < m := by omega
  refine ⟨?_, ?_, ?_, ?_⟩
  · intro t ht
    rw [indexOfRep]
    rcases ht with h | h | h
    · rw [if_neg (by omega)]
    · rw [if_neg (by omega)]
    · by_cases hg : 0 < t ∧ t < (m : Int)
      · rw [if_pos hg, TidxTable]
        exact invTable_miss m _ t.toNat h
      · rw [if_neg hg]
  · intro i hi hipos
    set t := getL 0 (Tlist m gens ords) i with htdef
    have htm : t < m := Tlist_lt m gens ords hm0 t (getL_mem 0 hi)
    rw [indexOfRep, if_pos (by constructor <;> [exact_mod_cast hipos; exact_mod_cast htm])]
    rw [Int.toNat_natCast, TidxTable]
    exact invTable_hit m _ hnodup (Tlist_lt m gens ords hm0) i hi
  · intro t ht
    rw [indexInZmstar]
    rcases ht with h | h | h
    · rw [if_neg (by omega)]
    · rw [if_neg (by omega)]
    · by_cases hg : 0 < t ∧ t < (m : Int)
      · rw [if_pos hg, zmsIdxTable]
        apply invTable_miss
        intro hmem
        exact h (mem_zmsList.mp hmem).2
      · rw [if_neg hg]
  · intro i hi
    set t := getL 0 (zmsList m) i with htdef
    have htmem : t ∈ zmsList m := getL_mem 0 hi
    have htm : t < m := (mem_zmsList.mp htmem).1
    have htpos : 0 < t := by
      rcases Nat.eq_zero_or_pos t with h0 | hp
      · have := (mem_zmsList.mp htmem).2
        rw [h0] at this
        have : m = 1 := by simpa [Nat.Coprime] using this
        omega
      · exact hp
    rw [indexInZmstar, if_pos (by constructor <;> [exact_mod_cast htpos; exact_mod_cast htm])]
    rw [Int.toNat_natCast, zmsIdxTable]
    exact invTable_hit m _ (zmsList_nodup m) (fun v hv => (mem_zmsList.mp hv).1) i hi

/-- Witness for C8 at `m = 5` with `T = [1, 2]`:
out-of-range and non-member probes give `-1`; members give their indices. -/
theorem C8_lookup_sentinels_witness :
    indexOfRep 5 (TidxTable 5 [2] [2]) (-7) = -1
    ∧ indexOfRep 5 (TidxTable 5 [2] [2]) 7 = -1
    ∧ indexOfRep 5 (TidxTable 5 [2] [2]) ((getL 0 (Tlist 5 [2] [2]) 1 : ℕ) : Int) = 1
    ∧ indexInZmstar 5 (zmsIdxTable 5) 10 = -1
    ∧ indexInZmstar 5 (zmsIdxTable 5) ((getL 0 (zmsList 5) 2 : ℕ) : Int) = 2 := by
  have h := C8_lookup_sentinels 5 [2] [2] (by decide) (by decide)
  exact ⟨h.1 (-7) (by left; decide), h.1 7 (by right; left; decide),
    h.2.1 1 (by decide) (by decide), h.2.2.1 10 (by right; left; decide),
    h.2.2.2 2 (by decide)⟩

end ClaimC8

section ClaimC9

/-- The CRT merge tree (`TNode<RX>` of PAlgebra.h lines 537-550). -/
inductive CrtTree (q : ℕ) : Type where
  | nil : CrtTree q
  | node : CrtTree q → CrtTree q → Poly q → CrtTree q

/-- The state of a `PAlgebraModDerived<type>` object: the tables its
constructor builds (PAlgebra.h lines 574-587).  `factorsOverZZ` holds the
factors lifted to integer polynomials. -/
structure CoderState (q : ℕ) : Type where
  r : ℕ
  pPowR : ℕ
  PhimXMod : Poly q
  factors : List (Poly q)
  factorsOverZZ : List (List Int)
  crtCoeffs : List (Poly q)
  maskTbl : List (List (Poly q))
  crtTable : List (Poly q)
  crtTree : CrtTree q

/-- Embeds the copy constructor of `PAlgebraModDerived` (PAlgebra.h lines
597-612): it copies `r`, `pPowR`, the modulus context, `PhimXMod`, `factors`,
`maskTable`, `crtTable` and `crtTree` from `other` — but not `factorsOverZZ`
and not `crtCoeffs`, which keep their default-constructed (empty) values. -/
def copyCtor (other : CoderState q) : CoderState q :=
  CoderState.mk other.r other.pPowR other.PhimXMod other.factors
    [] [] other.maskTbl other.crtTable other.crtTree

/-- Embeds `PAlgebraModDerived::clone` (PAlgebra.h lines 614-618):
`new PAlgebraModDerived(*this)` via the copy constructor. -/
def clone (x : CoderState q) : CoderState q := copyCtor x

/-- Embeds `PAlgebraModDerived::getFactorsOverZZ` (PAlgebra.h lines 627-630). -/
def getFactorsOverZZ (x : CoderState q) : List (List Int) := x.factorsOverZZ

/-- A fully populated two-slot coder state over `Z/3` (all tables nonempty,
as the constructor leaves them). -/
def sampleCoder : CoderState 3 :=
  CoderState.mk 1 3 [2, 0, 1] [[2, 1], [1, 1]] [[2, 0, 1]] [[2], [1]]
    [[[1]]] [[2, 0, 1]] (CrtTree.node CrtTree.nil CrtTree.nil [2, 0, 1])

/-- Claim C9 is false on the code (code bug): the copy constructor copies
`PhimXMod`, `factors`, `maskTable`, `crtTable` and `crtTree` but omits
`factorsOverZZ` and `crtCoeffs` (PAlgebra.h lines 597-612), so a clone
returns an empty `getFactorsOverZZ()` and reconstructs with empty
`crtCoeffs`, disagreeing with the original — contradicting the documented
deep-copy semantics (PAlgebra.h lines 325-329 and 820-824). -/
theorem C9_copy_drops_tables :
    (clone sampleCoder).factors = sampleCoder.factors
    ∧ (clone sampleCoder).PhimXMod = sampleCoder.PhimXMod
    ∧ (clone sampleCoder).crtTable = sampleCoder.crtTable
    ∧ getFactorsOverZZ (clone sampleCoder) ≠ getFactorsOverZZ sampleCoder
    ∧ (clone sampleCoder).crtCoeffs ≠ sampleCoder.crtCoeffs
    ∧ CRT_reconstruct (clone sampleCoder).factors (clone sampleCoder).crtCoeffs
        [[1], [2]]
      ≠ CRT_reconstruct sampleCoder.factors sampleCoder.crtCoeffs [[1], [2]] := by
  refine ⟨rfl, rfl, rfl, by decide, by decide, by decide⟩

end ClaimC9

section ClaimC10

/-- Embeds `PAlgebraModDerived<PA_cx>` (PAlgebra.h lines 770-801): the dummy
approximate-numbers coder stores only the PAlgebra reference and `r`,
which counts bits of precision. -/
structure PAlgebraModCx : Type where
  r : ℕ

/-- Embeds `PAlgebraModCx::getPPowR` (PAlgebra.h line 788): `return 1L << r;`. -/
def cxGetPPowR (x : PAlgebraModCx) : ℕ := Nat.shiftLeft 1 x.r

/-- Embeds `PAlgebraModCx::getFactorsOverZZ` (PAlgebra.h lines 792-795):
`throw LogicError("PAlgebraModCx::getFactorsOverZZ undefined");` for every
call. -/
def cxGetFactorsOverZZ (x : PAlgebraModCx) : Except String (List (List Int)) :=
  Except.error "PAlgebraModCx::getFactorsOverZZ undefined"

/-- Embeds `PAlgebraModCx::getMask_zzX` (PAlgebra.h lines 797-800):
`throw LogicError("PAlgebraModCx::getMask_zzX undefined");` for every
argument pair. -/
def cxGetMask_zzX (x : PAlgebraModCx) (i j : Int) : Except String (List Int) :=
  Except.error "PAlgebraModCx::getMask_zzX undefined"

/-- Claim C10: for a coder built with the complex/approximate tag (`PA_cx`),
`getFactorsOverZZ()` and `getMask_zzX(i, j)` throw a `LogicError` for every
argument, and `getPPowR()` returns `2^r` (with `r` counting bits of
precision) rather than `p^r`. -/
theorem C10_cx_behavior :
    ∀ (x : PAlgebraModCx) (i j : Int),
      isOkE (cxGetFactorsOverZZ x) = false
      ∧ isOkE (cxGetMask_zzX x i j) = false
      ∧ cxGetPPowR x = 2 ^ x.r := by
  intro x i j
  refine ⟨rfl, rfl, ?_⟩
  show (1 : ℕ) <<< x.r = 2 ^ x.r
  rw [Nat.shiftLeft_eq, one_mul]

end ClaimC10

end HElibVerif
